import Mathlib

/-!
# Verification of the `kfifo` ring-buffer core (zhengjy926/utilities)

Shallow embedding of `src/kfifo.c`, `src/kfifo.h` and `src/math/log2.h`.
Cursors are C `unsigned int` values, modelled as `Nat` with explicit
reduction modulo `2^32`; the byte storage is a `List Nat` and `memcpy`
is modelled byte by byte.  Stateful C functions become pure functions
that return the updated `kfifo_t` record explicitly.
-/

/-- `2^32`, the modulus of C `unsigned int` arithmetic on the target. -/
def U32 : Nat := 4294967296

/-- C unsigned-int addition: `(a + b)` reduced mod `2^32`. -/
def uadd (a b : Nat) : Nat := (a + b) % U32

/-- C unsigned-int subtraction: `a - b` with wraparound, reduced mod `2^32`. -/
def usub (a b : Nat) : Nat := (a + (U32 - b % U32)) % U32

/-- `is_power_of_2` from `src/math/log2.h`:
`(n != 0 && ((n & (n - 1)) == 0))`. -/
def is_power_of_2 (n : Nat) : Bool := n != 0 && (n &&& (n - 1) == 0)

/-- The ARM `CLZ` instruction on a 32-bit operand: the number of leading
zero bits (`32` when the operand is `0`). -/
def clz32 (n : Nat) : Nat := 32 - (if n = 0 then 0 else Nat.log2 n + 1)

/-- `rounddown_pow_of_two` from `src/math/log2.h`:
`1U << ((32 - __CLZ(n)) - 1)`.  The subtractions are `Nat` truncated
subtraction; for `n = 0` the C expression shifts by an amount `≥ 32`,
which is undefined behaviour, and the model returns `1` there. -/
def rounddown_pow_of_two (n : Nat) : Nat := 1 <<< ((32 - clz32 n) - 1)

/-- `min3` from `src/math/minmax.h`: `min(min(x, y), z)`. -/
def min3 (x y z : Nat) : Nat := min (min x y) z

/-- `EINVAL` from `errno-base.h` (the Linux errno value). -/
def EINVAL : Int := 22

/-- The `kfifo_t` structure from `src/kfifo.h`.  `In` models the C field
`in` (a Lean keyword); `data` is the backing byte storage. -/
structure kfifo_t where
  In : Nat
  out : Nat
  mask : Nat
  esize : Nat
  data : List Nat
deriving Repr, DecidableEq

/-- Byte-wise model of C `memcpy(dst + dstOff, src + srcOff, len)` where
`dst` is a buffer we mutate and `src` is read with default `0` past its
end (a C out-of-bounds read is junk; the model determinises it to `0`). -/
def memcpy (dst : List Nat) (dstOff : Nat) (src : List Nat) (srcOff : Nat) :
    Nat → List Nat
  | 0 => dst
  | n + 1 => memcpy (dst.set dstOff (src.getD srcOff 0)) (dstOff + 1) src (srcOff + 1) n

/-- `kfifo_init` from `src/kfifo.c` (lines 40-62).  The C function
mutates `*fifo` and returns an `int`; the model returns the updated
record together with the return value. -/
def kfifo_init (fifo : kfifo_t) (buffer : List Nat) (size esize : Nat) :
    kfifo_t × Int :=
  let size := size / esize
  let size := if ¬ is_power_of_2 size then rounddown_pow_of_two size else size
  let fifo := { fifo with In := 0, out := 0, esize := esize, data := buffer }
  if size < 2 then ({ fifo with mask := 0 }, -EINVAL)
  else ({ fifo with mask := size - 1 }, 0)

/-- The second draft of `kfifo_init` (`src/kfifo.c` lines 324-347), which
additionally rejects `esize == 0` before dividing. -/
def kfifo_init_v2 (fifo : kfifo_t) (buffer : List Nat) (size esize : Nat) :
    kfifo_t × Int :=
  if esize = 0 then (fifo, -EINVAL)
  else
    let size := size / esize
    let size := if ¬ is_power_of_2 size then rounddown_pow_of_two size else size
    let fifo := { fifo with In := 0, out := 0, esize := esize, data := buffer }
    if size < 2 then ({ fifo with mask := 0 }, -EINVAL)
    else ({ fifo with mask := size - 1 }, 0)

/-- `kfifo_unused` from `src/kfifo.c`:
`(fifo->mask + 1) - (fifo->in - fifo->out)` in unsigned arithmetic. -/
def kfifo_unused (fifo : kfifo_t) : Nat :=
  usub (fifo.mask + 1) (usub fifo.In fifo.out)

/-- `kfifo_copy_in` from `src/kfifo.c`: two-segment wraparound copy of
`len` elements of `src` into the ring storage at element offset `off`. -/
def kfifo_copy_in (fifo : kfifo_t) (src : List Nat) (len off : Nat) : List Nat :=
  let size := fifo.mask + 1
  let esize := fifo.esize
  let off := off &&& fifo.mask
  let off := if esize != 1 then off * esize else off
  let size := if esize != 1 then size * esize else size
  let len := if esize != 1 then len * esize else len
  let l := min len (size - off)
  let data := memcpy fifo.data off src 0 l
  memcpy data 0 src l (len - l)

/-- `kfifo_copy_out` from `src/kfifo.c`: two-segment wraparound copy of
`len` elements of the ring storage at element offset `off` into `dst`. -/
def kfifo_copy_out (fifo : kfifo_t) (dst : List Nat) (len off : Nat) : List Nat :=
  let size := fifo.mask + 1
  let esize := fifo.esize
  let off := off &&& fifo.mask
  let off := if esize != 1 then off * esize else off
  let size := if esize != 1 then size * esize else size
  let len := if esize != 1 then len * esize else len
  let l := min len (size - off)
  let dst := memcpy dst 0 fifo.data off l
  memcpy dst l fifo.data 0 (len - l)

/-- `kfifo_in` from `src/kfifo.c` (lines 71-82): clamp `len` to the
unused space, copy in at the write cursor, advance the write cursor.
Returns the updated fifo and the number of elements copied. -/
def kfifo_in (fifo : kfifo_t) (buf : List Nat) (len : Nat) : kfifo_t × Nat :=
  let l := kfifo_unused fifo
  let len := if len > l then l else len
  let data := kfifo_copy_in fifo buf len fifo.In
  ({ fifo with data := data, In := uadd fifo.In len }, len)

/-- `kfifo_out_peek` from `src/kfifo.c` (lines 111-121): clamp `len` to
the used count, copy out at the read cursor, do not advance any cursor.
Returns the (unchanged) fifo, the filled destination buffer and the
number of elements copied. -/
def kfifo_out_peek (fifo : kfifo_t) (buf : List Nat) (len : Nat) :
    kfifo_t × List Nat × Nat :=
  let l := usub fifo.In fifo.out
  let len := if len > l then l else len
  let buf := kfifo_copy_out fifo buf len fifo.out
  (fifo, buf, len)

/-- `kfifo_out` from `src/kfifo.c` (lines 153-158): delegate to
`kfifo_out_peek`, then advance the read cursor by the peeked count. -/
def kfifo_out (fifo : kfifo_t) (buf : List Nat) (len : Nat) :
    kfifo_t × List Nat × Nat :=
  let r := kfifo_out_peek fifo buf len
  let len := r.2.2
  ({ r.1 with out := uadd r.1.out len }, r.2.1, len)

/-- `kfifo_out_linear` from `src/kfifo.c` (lines 133-144).  The C
function stores the start offset through the `tail` pointer when it is
non-null; the model always returns that offset, together with the
(unchanged) fifo and the returned count. -/
def kfifo_out_linear (fifo : kfifo_t) (n : Nat) : kfifo_t × Nat × Nat :=
  let size := fifo.mask + 1
  let off := fifo.out &&& fifo.mask
  (fifo, off, min3 n (usub fifo.In fifo.out) (size - off))

/-- `kfifo_len` from `src/kfifo.h`: `fifo->in - fifo->out`. -/
def kfifo_len (fifo : kfifo_t) : Nat := usub fifo.In fifo.out

/-- `kfifo_skip_count` from `src/kfifo.h`: `fifo->out += count`,
unconditionally. -/
def kfifo_skip_count (fifo : kfifo_t) (count : Nat) : kfifo_t :=
  { fifo with out := uadd fifo.out count }

/-- `kfifo_initialized` from `src/kfifo.h`:
`(fifo->mask != 0U) ? 1U : 0U`. -/
def kfifo_initialized (fifo : kfifo_t) : Nat :=
  if fifo.mask != 0 then 1 else 0

/-- Well-formedness of a fifo state, as established by a successful
`kfifo_init` and preserved by the transfer operations: the cursors are
32-bit values, the capacity `mask + 1` is a power of two at most `2^31`,
and the wraparound difference `in - out` is at most the capacity. -/
def kfifo_wf (f : kfifo_t) : Prop :=
  f.In < U32 ∧ f.out < U32 ∧ is_power_of_2 (f.mask + 1) = true ∧
    f.mask + 1 ≤ 2 ^ 31 ∧ usub f.In f.out ≤ f.mask + 1

instance (f : kfifo_t) : Decidable (kfifo_wf f) := by
  unfold kfifo_wf; infer_instance

/-- The logical contents of the fifo: the stored bytes, oldest first
(`esize = 1` view).  Element `i` lives at ring position
`(out + i) % capacity`. -/
def absBytes (f : kfifo_t) : List Nat :=
  (List.range (usub f.In f.out)).map fun i => f.data.getD ((f.out + i) % (f.mask + 1)) 0

/-- One producer/consumer call in a sequential trace: `inOp buf len`
is `kfifo_in fifo buf len`, `outOp len` is `kfifo_out fifo dst len`
into a scratch destination buffer. -/
inductive KOp where
  | inOp : List Nat → Nat → KOp
  | outOp : Nat → KOp

/-- Run a sequence of `kfifo_in`/`kfifo_out` calls, accumulating the
running totals of elements reported written (`tin`) and read (`tout`). -/
def runOps : kfifo_t → Nat → Nat → List KOp → kfifo_t × Nat × Nat
  | f, tin, tout, [] => (f, tin, tout)
  | f, tin, tout, KOp.inOp buf len :: ops =>
      runOps (kfifo_in f buf len).1 (tin + (kfifo_in f buf len).2) tout ops
  | f, tin, tout, KOp.outOp len :: ops =>
      runOps (kfifo_out f (List.replicate len 0) len).1 tin
        (tout + (kfifo_out f (List.replicate len 0) len).2.2) ops

/-- Modelled from the spec: the non-circular reference FIFO of §8
("the same data a non-circular reference implementation would
produce") — a fixed-capacity queue of bytes in a plain list. -/
structure RefFifo where
  cap : Nat
  buf : List Nat
deriving Repr, DecidableEq

/-- Modelled from the spec: the reference "in" appends
`min(len, cap - size)` elements of the source to the queue. -/
def ref_in (r : RefFifo) (xs : List Nat) (len : Nat) : RefFifo × Nat :=
  let n := min len (r.cap - r.buf.length)
  ({ r with buf := r.buf ++ List.take n xs }, n)

/-- Modelled from the spec: the reference "out" removes and returns the
first `min(len, size)` elements of the queue. -/
def ref_out (r : RefFifo) (len : Nat) : RefFifo × List Nat :=
  let n := min len r.buf.length
  ({ r with buf := r.buf.drop n }, r.buf.take n)

/-- The spec §8 wraparound scenario on the code under test: write
`capacity` elements, read `capacity / 2`, write `capacity / 2` more.
Returns the three intermediate results. -/
def scenarioK (f : kfifo_t) (buf1 buf2 : List Nat) :
    (kfifo_t × Nat) × (kfifo_t × List Nat × Nat) × (kfifo_t × Nat) :=
  let s1 := kfifo_in f buf1 (f.mask + 1)
  let s2 := kfifo_out s1.1 (List.replicate ((f.mask + 1) / 2) 0) ((f.mask + 1) / 2)
  let s3 := kfifo_in s2.1 buf2 ((f.mask + 1) / 2)
  (s1, s2, s3)

/-- Modelled from the spec: the same scenario on the non-circular
reference FIFO. -/
def scenarioR (cap : Nat) (buf1 buf2 : List Nat) :
    (RefFifo × Nat) × (RefFifo × List Nat) × (RefFifo × Nat) :=
  let t1 := ref_in ⟨cap, []⟩ buf1 cap
  let t2 := ref_out t1.1 (cap / 2)
  let t3 := ref_in t2.1 buf2 (cap / 2)
  (t1, t2, t3)

/-! ## Basic facts about the modelled primitives -/

theorem U32_eq : U32 = 2 ^ 32 := by norm_num [U32]

theorem memcpy_length (n : Nat) : ∀ (dst : List Nat) (dstOff srcOff : Nat)
    (src : List Nat), (memcpy dst dstOff src srcOff n).length = dst.length := by
  induction n with
  | zero => intro dst dstOff srcOff src; rfl
  | succ n ih =>
      intro dst dstOff srcOff src
      show (memcpy (dst.set dstOff (src.getD srcOff 0)) (dstOff + 1) src (srcOff + 1) n).length = _
      rw [ih, List.length_set]

theorem getD_set_self (l : List Nat) (j v : Nat) (h : j < l.length) :
    (l.set j v).getD j 0 = v := by
  simp [List.getD_eq_getElem?_getD, List.getElem?_set, h]

theorem getD_set_ne (l : List Nat) (i j v : Nat) (h : j ≠ i) :
    (l.set j v).getD i 0 = l.getD i 0 := by
  simp [List.getD_eq_getElem?_getD, List.getElem?_set, h]

/-- Pointwise characterisation of `memcpy`: inside the written window the
destination holds the corresponding source byte, outside it is unchanged.
Requires the write to stay in bounds, as every real call in `kfifo.c` does. -/
theorem getD_memcpy (n : Nat) : ∀ (dst : List Nat) (dstOff srcOff : Nat)
    (src : List Nat), dstOff + n ≤ dst.length → ∀ i,
    (memcpy dst dstOff src srcOff n).getD i 0 =
      if dstOff ≤ i ∧ i < dstOff + n then src.getD (srcOff + (i - dstOff)) 0
      else dst.getD i 0 := by
  induction n with
  | zero =>
      intro dst dstOff srcOff src h i
      rw [show memcpy dst dstOff src srcOff 0 = dst from rfl, if_neg (by omega)]
  | succ n ih =>
      intro dst dstOff srcOff src h i
      show (memcpy (dst.set dstOff (src.getD srcOff 0)) (dstOff + 1) src (srcOff + 1) n).getD i 0 = _
      rw [ih (dst.set dstOff (src.getD srcOff 0)) (dstOff + 1) (srcOff + 1) src
            (by rw [List.length_set]; omega) i]
      by_cases h1 : dstOff + 1 ≤ i ∧ i < dstOff + 1 + n
      · have h2 : dstOff ≤ i ∧ i < dstOff + (n + 1) := by omega
        have h3 : srcOff + 1 + (i - (dstOff + 1)) = srcOff + (i - dstOff) := by omega
        rw [if_pos h1, if_pos h2, h3]
      · by_cases h4 : i = dstOff
        · have h2 : dstOff ≤ i ∧ i < dstOff + (n + 1) := by omega
          rw [if_neg h1, if_pos h2, h4, getD_set_self dst dstOff _ (by omega)]
          simp [h4]
        · have h5 : ¬ (dstOff ≤ i ∧ i < dstOff + (n + 1)) := by omega
          rw [if_neg h1, if_neg h5, getD_set_ne dst i dstOff _ (by omega)]

/-! ## Unsigned 32-bit arithmetic facts -/

theorem usub_lt (a b : Nat) : usub a b < U32 := by
  simp only [usub, U32]; omega

theorem uadd_lt (a b : Nat) : uadd a b < U32 := by
  simp only [uadd, U32]; omega

theorem usub_self (a : Nat) : usub a a = 0 := by
  simp only [usub, U32]; omega

theorem usub_of_le {a b : Nat} (h1 : b ≤ a) (h2 : a < U32) : usub a b = a - b := by
  simp only [usub, U32] at *; omega

theorem usub_uadd_left (a b d : Nat) :
    usub (uadd a d) b = (usub a b + d) % U32 := by
  simp only [usub, uadd, U32]; omega

theorem usub_uadd_left_small {a b d : Nat} (h : usub a b + d < U32) :
    usub (uadd a d) b = usub a b + d := by
  rw [usub_uadd_left, Nat.mod_eq_of_lt h]

theorem usub_uadd_right (a b d : Nat) :
    usub a (uadd b d) = usub (usub a b) d := by
  simp only [usub, uadd, U32]; omega

theorem usub_uadd_right_small {a b d : Nat} (h : d ≤ usub a b) :
    usub a (uadd b d) = usub a b - d := by
  rw [usub_uadd_right, usub_of_le h (usub_lt a b)]

/-! ## Power-of-two facts about `is_power_of_2` and `rounddown_pow_of_two` -/

theorem is_power_of_2_iff_raw (n : Nat) :
    is_power_of_2 n = true ↔ n ≠ 0 ∧ n &&& (n - 1) = 0 := by
  simp [is_power_of_2]

theorem is_power_of_2_two_pow (k : Nat) : is_power_of_2 (2 ^ k) = true := by
  rw [is_power_of_2_iff_raw]
  refine ⟨(pow_pos (by norm_num : (0:Nat) < 2) k).ne', ?_⟩
  rw [Nat.and_pow_two_sub_one_eq_mod]
  exact Nat.mod_self _

theorem eq_two_pow_of_is_power_of_2 {n : Nat} (h : is_power_of_2 n = true) :
    n = 2 ^ Nat.log2 n := by
  rw [is_power_of_2_iff_raw] at h
  obtain ⟨hn0, hand⟩ := h
  have h1 : 2 ^ Nat.log2 n ≤ n := Nat.log2_self_le hn0
  have h2 : n < 2 ^ (Nat.log2 n + 1) := Nat.lt_log2_self
  by_contra hne
  have hlt : 2 ^ Nat.log2 n < n := lt_of_le_of_ne h1 fun he => hne he.symm
  have hp : 0 < 2 ^ Nat.log2 n := Nat.pos_pow_of_pos _ (by norm_num)
  have hb1 : n.testBit (Nat.log2 n) = true := by
    rw [Nat.testBit_to_div_mod]
    have hd : n / 2 ^ Nat.log2 n = 1 := by
      have ha : 1 ≤ n / 2 ^ Nat.log2 n := (Nat.le_div_iff_mul_le hp).mpr (by omega)
      have hbnd : n / 2 ^ Nat.log2 n < 2 := (Nat.div_lt_iff_lt_mul hp).mpr (by
        rw [Nat.pow_succ] at h2; omega)
      omega
    simp [hd]
  have hb2 : (n - 1).testBit (Nat.log2 n) = true := by
    rw [Nat.testBit_to_div_mod]
    have hd : (n - 1) / 2 ^ Nat.log2 n = 1 := by
      have ha : 1 ≤ (n - 1) / 2 ^ Nat.log2 n := (Nat.le_div_iff_mul_le hp).mpr (by omega)
      have hbnd : (n - 1) / 2 ^ Nat.log2 n < 2 := (Nat.div_lt_iff_lt_mul hp).mpr (by
        rw [Nat.pow_succ] at h2; omega)
      omega
    simp [hd]
  have hz := Nat.testBit_and n (n - 1) (Nat.log2 n)
  rw [hand, Nat.zero_testBit, hb1, hb2] at hz
  simp at hz

/-- On a capacity mask whose `mask + 1` is a power of two, the C idiom
`x & mask` is reduction modulo the capacity. -/
theorem land_mask_eq_mod {m : Nat} (h : is_power_of_2 (m + 1) = true) (x : Nat) :
    x &&& m = x % (m + 1) := by
  have hm := eq_two_pow_of_is_power_of_2 h
  have hm1 : m = 2 ^ Nat.log2 (m + 1) - 1 := by omega
  conv_lhs => rw [hm1]
  rw [Nat.and_pow_two_sub_one_eq_mod, ← hm]

theorem rounddown_pow_of_two_eq {n : Nat} (h1 : n ≠ 0) (h2 : n < U32) :
    rounddown_pow_of_two n = 2 ^ Nat.log2 n := by
  have hlog : Nat.log2 n < 32 := (Nat.log2_lt h1).mpr (by rw [← U32_eq]; exact h2)
  rw [rounddown_pow_of_two, clz32, if_neg h1, Nat.shiftLeft_eq, one_mul]
  congr 1
  omega

theorem rounddown_pow_of_two_le {n : Nat} (h1 : n ≠ 0) (h2 : n < U32) :
    rounddown_pow_of_two n ≤ n := by
  rw [rounddown_pow_of_two_eq h1 h2]; exact Nat.log2_self_le h1

/-! ## Consequences of well-formedness -/

theorem kfifo_wf_cap_lt {f : kfifo_t} (h : kfifo_wf f) : f.mask + 1 < U32 := by
  have := h.2.2.2.1
  rw [U32_eq]
  calc f.mask + 1 ≤ 2 ^ 31 := this
  _ < 2 ^ 32 := by norm_num

theorem kfifo_wf_cap_dvd {f : kfifo_t} (h : kfifo_wf f) : (f.mask + 1) ∣ U32 := by
  obtain ⟨-, -, hpow, hle, -⟩ := h
  have hcap := eq_two_pow_of_is_power_of_2 hpow
  have hk : Nat.log2 (f.mask + 1) ≤ 31 := by
    by_contra hgt
    have : 2 ^ 32 ≤ 2 ^ Nat.log2 (f.mask + 1) :=
      Nat.pow_le_pow_right (by norm_num) (by omega)
    have h31 : (2:Nat) ^ 31 < 2 ^ 32 := by norm_num
    omega
  rw [U32_eq, hcap]
  exact pow_dvd_pow 2 (by omega)

/-- Under well-formedness, `kfifo_unused` is the plain difference
`capacity - used`. -/
theorem kfifo_unused_eq {f : kfifo_t} (h : kfifo_wf f) :
    kfifo_unused f = (f.mask + 1) - usub f.In f.out := by
  have h1 : usub f.In f.out ≤ f.mask + 1 := h.2.2.2.2
  have h2 : f.mask + 1 < U32 := kfifo_wf_cap_lt h
  exact usub_of_le h1 h2

/-! ## Pointwise characterisation of the two-segment wraparound copies -/

theorem kfifo_copy_in_esize_one {f : kfifo_t} (he : f.esize = 1)
    (src : List Nat) (len off : Nat) :
    kfifo_copy_in f src len off =
      memcpy (memcpy f.data (off &&& f.mask) src 0
          (min len ((f.mask + 1) - (off &&& f.mask)))) 0 src
        (min len ((f.mask + 1) - (off &&& f.mask)))
        (len - min len ((f.mask + 1) - (off &&& f.mask))) := by
  unfold kfifo_copy_in
  simp [he]

theorem kfifo_copy_out_esize_one {f : kfifo_t} (he : f.esize = 1)
    (dst : List Nat) (len off : Nat) :
    kfifo_copy_out f dst len off =
      memcpy (memcpy dst 0 f.data (off &&& f.mask)
          (min len ((f.mask + 1) - (off &&& f.mask))))
        (min len ((f.mask + 1) - (off &&& f.mask))) f.data 0
        (len - min len ((f.mask + 1) - (off &&& f.mask))) := by
  unfold kfifo_copy_out
  simp [he]

/-- The two-segment copy-in writes the byte `src[j]` to ring position
`(a + j) % capacity` for every `j` below the transfer count, and leaves
every other ring position unchanged. -/
theorem getD_kfifo_copy_in {f : kfifo_t} (he : f.esize = 1)
    (hpow : is_power_of_2 (f.mask + 1) = true)
    (hlen : f.mask + 1 ≤ f.data.length) (src : List Nat) {r : Nat} (a : Nat)
    (hr : r ≤ f.mask + 1) {j : Nat} (hj : j < f.mask + 1) :
    (kfifo_copy_in f src r a).getD ((a + j) % (f.mask + 1)) 0 =
      if j < r then src.getD j 0
      else f.data.getD ((a + j) % (f.mask + 1)) 0 := by
  set cap := f.mask + 1 with hcap
  have hcap0 : 0 < cap := Nat.succ_pos _
  rw [kfifo_copy_in_esize_one he, land_mask_eq_mod hpow]
  set off := a % cap with hoffdef
  have hoff : off < cap := Nat.mod_lt _ hcap0
  set l := min r (cap - off) with hl
  have hl1 : l ≤ r := Nat.min_le_left _ _
  have hl2 : l ≤ cap - off := Nat.min_le_right _ _
  have hl3 : l = r ∨ l = cap - off := by
    rcases Nat.le_total r (cap - off) with h | h
    · left; omega
    · right; omega
  have hp : (a + j) % cap = (off + j) % cap := by
    rw [hoffdef]; exact (Nat.mod_add_mod a cap j).symm
  rw [hp]
  have hmem1 : off + l ≤ (f.data).length := by omega
  have hmem2 : 0 + (r - l) ≤ (memcpy f.data off src 0 l).length := by
    rw [memcpy_length]; omega
  by_cases hwrap : j < cap - off
  · have hpj : (off + j) % cap = off + j := Nat.mod_eq_of_lt (by omega)
    rw [hpj, getD_memcpy _ _ _ _ _ hmem2, getD_memcpy _ _ _ _ _ hmem1]
    by_cases hjr : j < r
    · have hinner : off ≤ off + j ∧ off + j < off + l := by omega
      have houter : ¬ (0 ≤ off + j ∧ off + j < 0 + (r - l)) := by omega
      rw [if_pos hjr, if_neg houter, if_pos hinner]
      have hidx : 0 + (off + j - off) = j := by omega
      rw [hidx]
    · have hinner : ¬ (off ≤ off + j ∧ off + j < off + l) := by omega
      have houter : ¬ (0 ≤ off + j ∧ off + j < 0 + (r - l)) := by omega
      rw [if_neg hjr, if_neg houter, if_neg hinner]
  · have hpj : (off + j) % cap = off + j - cap := by
      rw [Nat.mod_eq_sub_mod (by omega : cap ≤ off + j)]
      exact Nat.mod_eq_of_lt (by omega)
    rw [hpj, getD_memcpy _ _ _ _ _ hmem2, getD_memcpy _ _ _ _ _ hmem1]
    by_cases hjr : j < r
    · have hlcap : l = cap - off := by omega
      have houter : 0 ≤ off + j - cap ∧ off + j - cap < 0 + (r - l) := by omega
      rw [if_pos hjr, if_pos houter]
      have hidx : l + (off + j - cap - 0) = j := by omega
      rw [hidx]
    · have houter : ¬ (0 ≤ off + j - cap ∧ off + j - cap < 0 + (r - l)) := by omega
      have hinner : ¬ (off ≤ off + j - cap ∧ off + j - cap < off + l) := by omega
      rw [if_neg hjr, if_neg houter, if_neg hinner]

/-- The two-segment copy-out fills `dst[q]` with the ring byte at
position `(a + q) % capacity` for every `q` below the transfer count,
and leaves the rest of `dst` unchanged. -/
theorem getD_kfifo_copy_out {f : kfifo_t} (he : f.esize = 1)
    (hpow : is_power_of_2 (f.mask + 1) = true) (dst : List Nat) {r : Nat} (a : Nat)
    (hr : r ≤ f.mask + 1) (hdst : r ≤ dst.length) (q : Nat) :
    (kfifo_copy_out f dst r a).getD q 0 =
      if q < r then f.data.getD ((a + q) % (f.mask + 1)) 0
      else dst.getD q 0 := by
  set cap := f.mask + 1 with hcap
  have hcap0 : 0 < cap := Nat.succ_pos _
  rw [kfifo_copy_out_esize_one he, land_mask_eq_mod hpow]
  set off := a % cap with hoffdef
  have hoff : off < cap := Nat.mod_lt _ hcap0
  set l := min r (cap - off) with hl
  have hl1 : l ≤ r := Nat.min_le_left _ _
  have hl2 : l ≤ cap - off := Nat.min_le_right _ _
  have hl3 : l = r ∨ l = cap - off := by
    rcases Nat.le_total r (cap - off) with h | h
    · left; omega
    · right; omega
  have hq : (a + q) % cap = (off + q) % cap := by
    rw [hoffdef]; exact (Nat.mod_add_mod a cap q).symm
  have hmem1 : 0 + l ≤ dst.length := by omega
  have hmem2 : l + (r - l) ≤ (memcpy dst 0 f.data off l).length := by
    rw [memcpy_length]; omega
  rw [getD_memcpy _ _ _ _ _ hmem2, getD_memcpy _ _ _ _ _ hmem1]
  by_cases hql : q < l
  · have houter : ¬ (l ≤ q ∧ q < l + (r - l)) := by omega
    have hinner : 0 ≤ q ∧ q < 0 + l := by omega
    rw [if_neg houter, if_pos hinner, if_pos (by omega : q < r), hq,
        Nat.mod_eq_of_lt (by omega : off + q < cap)]
    have hidx : off + (q - 0) = off + q := by omega
    rw [hidx]
  · by_cases hqr : q < r
    · have hlcap : l = cap - off := by omega
      have houter : l ≤ q ∧ q < l + (r - l) := by omega
      rw [if_pos houter, if_pos hqr, hq]
      have h1 : (off + q) % cap = q - l := by
        rw [Nat.mod_eq_sub_mod (by omega : cap ≤ off + q)]
        have h2 : off + q - cap = q - l := by omega
        rw [h2]
        exact Nat.mod_eq_of_lt (by omega)
      rw [h1]
      have hidx : 0 + (q - l) = q - l := by omega
      rw [hidx]
    · have houter : ¬ (l ≤ q ∧ q < l + (r - l)) := by omega
      have hinner : ¬ (0 ≤ q ∧ q < 0 + l) := by omega
      rw [if_neg houter, if_neg hinner, if_neg hqr]

/-! ## Logical contents of a fifo and simulation lemmas -/

theorem absBytes_length (f : kfifo_t) :
    (absBytes f).length = usub f.In f.out := by
  simp [absBytes]

theorem absBytes_getD {f : kfifo_t} {i : Nat} (h : i < usub f.In f.out) :
    (absBytes f).getD i 0 = f.data.getD ((f.out + i) % (f.mask + 1)) 0 := by
  rw [absBytes, List.getD_eq_getElem?_getD, List.getElem?_map, List.getElem?_range h]
  rfl

theorem getD_append_right {l1 l2 : List Nat} {n : Nat} (h : l1.length ≤ n) :
    (l1 ++ l2).getD n 0 = l2.getD (n - l1.length) 0 := by
  rw [List.getD_eq_getElem?_getD, List.getElem?_append_right h,
      ← List.getD_eq_getElem?_getD]

theorem getD_take {l : List Nat} {r n : Nat} (h : n < r) :
    (List.take r l).getD n 0 = l.getD n 0 := by
  rw [List.getD_eq_getElem?_getD, List.getElem?_take, if_pos h,
      ← List.getD_eq_getElem?_getD]

theorem list_ext_getD {l1 l2 : List Nat} (hlen : l1.length = l2.length)
    (h : ∀ n, n < l1.length → l1.getD n 0 = l2.getD n 0) : l1 = l2 := by
  apply List.ext_getElem hlen
  intro n h1 h2
  have h3 := h n h1
  rw [List.getD_eq_getElem?_getD, List.getD_eq_getElem?_getD,
      List.getElem?_eq_getElem h1, List.getElem?_eq_getElem h2] at h3
  simpa using h3

/-- `b + (a - b) = a` in 32-bit unsigned arithmetic. -/
theorem uadd_usub_elim {a b : Nat} (ha : a < U32) : (b + usub a b) % U32 = a := by
  simp only [usub, U32] at *
  omega

/-- The write cursor sits `used` positions past the read cursor on the
ring: `(out + used) % capacity = in % capacity`. -/
theorem out_add_used_mod {f : kfifo_t} (hwf : kfifo_wf f) :
    (f.out + usub f.In f.out) % (f.mask + 1) = f.In % (f.mask + 1) := by
  have hdvd := kfifo_wf_cap_dvd hwf
  calc (f.out + usub f.In f.out) % (f.mask + 1)
      = ((f.out + usub f.In f.out) % U32) % (f.mask + 1) :=
        (Nat.mod_mod_of_dvd _ hdvd).symm
    _ = f.In % (f.mask + 1) := by rw [uadd_usub_elim hwf.1]

/-- Contents lemma for a copy-in of `ret ≤ capacity - used` elements at
the write cursor: the logical contents gain exactly the first `ret`
bytes of the source. -/
theorem kfifo_in_abs {f : kfifo_t} (buf : List Nat) (ret : Nat)
    (hwf : kfifo_wf f) (he : f.esize = 1) (hlen : f.mask + 1 ≤ f.data.length)
    (hret1 : ret ≤ (f.mask + 1) - usub f.In f.out) (hbuf : ret ≤ buf.length) :
    absBytes { f with data := kfifo_copy_in f buf ret f.In, In := uadd f.In ret } =
      absBytes f ++ List.take ret buf := by
  obtain ⟨hIn, hout, hpow, hle31, husedle⟩ := hwf
  have hwf' : kfifo_wf f := ⟨hIn, hout, hpow, hle31, husedle⟩
  have hcapU : f.mask + 1 < U32 := kfifo_wf_cap_lt hwf'
  have husub2 : usub (uadd f.In ret) f.out = usub f.In f.out + ret :=
    usub_uadd_left_small (by omega)
  have huse : usub ({ f with data := kfifo_copy_in f buf ret f.In, In := uadd f.In ret } : kfifo_t).In ({ f with data := kfifo_copy_in f buf ret f.In, In := uadd f.In ret } : kfifo_t).out = usub f.In f.out + ret := husub2
  apply list_ext_getD
  · rw [absBytes_length, huse, List.length_append, absBytes_length, List.length_take]
    omega
  · intro n hn
    rw [absBytes_length, huse] at hn
    rw [absBytes_getD (show n < _ by rw [huse]; exact hn)]
    show (kfifo_copy_in f buf ret f.In).getD ((f.out + n) % (f.mask + 1)) 0 =
      (absBytes f ++ List.take ret buf).getD n 0
    by_cases hcase : n < usub f.In f.out
    · -- old contents: the ring position is outside the written window
      have hj : f.mask + 1 - (usub f.In f.out - n) < f.mask + 1 := by omega
      have hcong : (f.out + n) % (f.mask + 1) =
          (f.In + (f.mask + 1 - (usub f.In f.out - n))) % (f.mask + 1) := by
        calc (f.out + n) % (f.mask + 1)
            = (f.out + n + (f.mask + 1)) % (f.mask + 1) := by
              rw [Nat.add_mod_right]
          _ = (f.out + usub f.In f.out +
                (f.mask + 1 - (usub f.In f.out - n))) % (f.mask + 1) := by
              congr 1
              omega
          _ = ((f.out + usub f.In f.out) % (f.mask + 1) +
                (f.mask + 1 - (usub f.In f.out - n))) % (f.mask + 1) := by
              rw [Nat.mod_add_mod]
          _ = (f.In % (f.mask + 1) +
                (f.mask + 1 - (usub f.In f.out - n))) % (f.mask + 1) := by
              rw [out_add_used_mod hwf']
          _ = (f.In + (f.mask + 1 - (usub f.In f.out - n))) % (f.mask + 1) := by
              rw [Nat.mod_add_mod]
      rw [hcong, getD_kfifo_copy_in he hpow hlen buf f.In (by omega) hj,
          if_neg (by omega), ← hcong, ← absBytes_getD hcase,
          List.getD_append _ _ _ _ (by rw [absBytes_length]; exact hcase)]
    · -- new contents: byte `n - used` of the source
      have hj : n - usub f.In f.out < f.mask + 1 := by omega
      have hcong : (f.out + n) % (f.mask + 1) =
          (f.In + (n - usub f.In f.out)) % (f.mask + 1) := by
        calc (f.out + n) % (f.mask + 1)
            = (f.out + usub f.In f.out + (n - usub f.In f.out)) % (f.mask + 1) := by
              congr 1
              omega
          _ = ((f.out + usub f.In f.out) % (f.mask + 1) +
                (n - usub f.In f.out)) % (f.mask + 1) := by
              rw [Nat.mod_add_mod]
          _ = (f.In % (f.mask + 1) + (n - usub f.In f.out)) % (f.mask + 1) := by
              rw [out_add_used_mod hwf']
          _ = (f.In + (n - usub f.In f.out)) % (f.mask + 1) := by
              rw [Nat.mod_add_mod]
      rw [hcong, getD_kfifo_copy_in he hpow hlen buf f.In (by omega) hj,
          if_pos (by omega)]
      rw [getD_append_right (by rw [absBytes_length]; omega), absBytes_length,
          getD_take (by omega)]

theorem kfifo_copy_in_length (f : kfifo_t) (src : List Nat) (len off : Nat) :
    (kfifo_copy_in f src len off).length = f.data.length := by
  simp only [kfifo_copy_in]
  rw [memcpy_length, memcpy_length]

theorem kfifo_copy_out_length (f : kfifo_t) (dst : List Nat) (len off : Nat) :
    (kfifo_copy_out f dst len off).length = dst.length := by
  simp only [kfifo_copy_out]
  rw [memcpy_length, memcpy_length]

theorem getD_drop (l : List Nat) (i n : Nat) :
    (l.drop i).getD n 0 = l.getD (i + n) 0 := by
  rw [List.getD_eq_getElem?_getD, List.getElem?_drop, ← List.getD_eq_getElem?_getD]

/-- State-level specification of `kfifo_in`: the returned count is
`min(len, capacity - used)`, only the write cursor and the data change,
well-formedness is preserved and the used count grows by the count. -/
theorem kfifo_in_state {f : kfifo_t} (buf : List Nat) (len : Nat) (hwf : kfifo_wf f) :
    (kfifo_in f buf len).2 = min len ((f.mask + 1) - usub f.In f.out) ∧
    (kfifo_in f buf len).1.In = uadd f.In (kfifo_in f buf len).2 ∧
    (kfifo_in f buf len).1.out = f.out ∧
    (kfifo_in f buf len).1.mask = f.mask ∧
    (kfifo_in f buf len).1.esize = f.esize ∧
    (kfifo_in f buf len).1.data.length = f.data.length ∧
    kfifo_wf (kfifo_in f buf len).1 ∧
    usub (kfifo_in f buf len).1.In (kfifo_in f buf len).1.out =
      usub f.In f.out + (kfifo_in f buf len).2 := by
  have hcapU : f.mask + 1 < U32 := kfifo_wf_cap_lt hwf
  have hused : usub f.In f.out ≤ f.mask + 1 := hwf.2.2.2.2
  have hL : (kfifo_in f buf len).2 = min len ((f.mask + 1) - usub f.In f.out) := by
    show (if len > kfifo_unused f then kfifo_unused f else len) = _
    rw [kfifo_unused_eq hwf]
    split <;> omega
  have hLle : (kfifo_in f buf len).2 ≤ (f.mask + 1) - usub f.In f.out := by
    rw [hL]; omega
  have husub0 : usub (uadd f.In (kfifo_in f buf len).2) f.out =
      usub f.In f.out + (kfifo_in f buf len).2 :=
    usub_uadd_left_small (by omega)
  have husub : usub (kfifo_in f buf len).1.In (kfifo_in f buf len).1.out =
      usub f.In f.out + (kfifo_in f buf len).2 := husub0
  have hwf2 : kfifo_wf (kfifo_in f buf len).1 := by
    refine ⟨uadd_lt _ _, hwf.2.1, hwf.2.2.1, hwf.2.2.2.1, ?_⟩
    rw [husub]
    show usub f.In f.out + (kfifo_in f buf len).2 ≤ f.mask + 1
    omega
  exact ⟨hL, rfl, rfl, rfl, rfl, kfifo_copy_in_length f buf _ f.In, hwf2, husub⟩

/-- Contents specification of `kfifo_in` (`esize = 1`): the logical
contents gain exactly the first `count` bytes of the source. -/
theorem kfifo_in_abs_spec {f : kfifo_t} (buf : List Nat) (len : Nat)
    (hwf : kfifo_wf f) (he : f.esize = 1) (hlen : f.mask + 1 ≤ f.data.length)
    (hbuf : len ≤ buf.length) :
    absBytes (kfifo_in f buf len).1 =
      absBytes f ++ List.take (kfifo_in f buf len).2 buf := by
  have hstate := kfifo_in_state buf len hwf
  have hLlen : (kfifo_in f buf len).2 ≤ len := by
    rw [hstate.1]; omega
  exact kfifo_in_abs buf (kfifo_in f buf len).2 hwf he hlen
    (by rw [hstate.1]; omega) (by omega)

/-- Full specification of `kfifo_out_peek` (`esize = 1`): the returned
count is `min(len, used)`, the fifo itself is returned unchanged, and
the destination holds the first `count` logical bytes, its tail
untouched. -/
theorem kfifo_out_peek_spec {f : kfifo_t} (buf : List Nat) (len : Nat)
    (hwf : kfifo_wf f) (he : f.esize = 1)
    (hdst : min len (usub f.In f.out) ≤ buf.length) :
    (kfifo_out_peek f buf len).1 = f ∧
    (kfifo_out_peek f buf len).2.2 = min len (usub f.In f.out) ∧
    (kfifo_out_peek f buf len).2.1.length = buf.length ∧
    (∀ q, q < min len (usub f.In f.out) →
      (kfifo_out_peek f buf len).2.1.getD q 0 = (absBytes f).getD q 0) ∧
    (∀ q, min len (usub f.In f.out) ≤ q →
      (kfifo_out_peek f buf len).2.1.getD q 0 = buf.getD q 0) := by
  have hused : usub f.In f.out ≤ f.mask + 1 := hwf.2.2.2.2
  have hL : (kfifo_out_peek f buf len).2.2 = min len (usub f.In f.out) := by
    show (if len > usub f.In f.out then usub f.In f.out else len) = _
    split <;> omega
  have hbuf2 : (kfifo_out_peek f buf len).2.1 =
      kfifo_copy_out f buf (min len (usub f.In f.out)) f.out := by
    show kfifo_copy_out f buf (if len > usub f.In f.out then usub f.In f.out else len) f.out = _
    rw [hL.symm]
    rfl
  refine ⟨rfl, hL, ?_, ?_, ?_⟩
  · rw [hbuf2, kfifo_copy_out_length]
  · intro q hq
    rw [hbuf2, getD_kfifo_copy_out he hwf.2.2.1 buf f.out (by omega)
          hdst q, if_pos hq, absBytes_getD (by omega)]
  · intro q hq
    rw [hbuf2, getD_kfifo_copy_out he hwf.2.2.1 buf f.out (by omega)
          hdst q, if_neg (by omega)]

/-- State-level specification of `kfifo_out`: same returned pair as
`kfifo_out_peek`, the read cursor advances by the peeked count, nothing
else changes, and the used count shrinks by the count. -/
theorem kfifo_out_state {f : kfifo_t} (buf : List Nat) (len : Nat) (hwf : kfifo_wf f) :
    (kfifo_out f buf len).2 = (kfifo_out_peek f buf len).2 ∧
    (kfifo_out f buf len).2.2 = min len (usub f.In f.out) ∧
    (kfifo_out f buf len).1.In = f.In ∧
    (kfifo_out f buf len).1.out = uadd f.out (kfifo_out f buf len).2.2 ∧
    (kfifo_out f buf len).1.mask = f.mask ∧
    (kfifo_out f buf len).1.esize = f.esize ∧
    (kfifo_out f buf len).1.data = f.data ∧
    kfifo_wf (kfifo_out f buf len).1 ∧
    usub (kfifo_out f buf len).1.In (kfifo_out f buf len).1.out =
      usub f.In f.out - (kfifo_out f buf len).2.2 := by
  have hused : usub f.In f.out ≤ f.mask + 1 := hwf.2.2.2.2
  have hL : (kfifo_out f buf len).2.2 = min len (usub f.In f.out) := by
    show (if len > usub f.In f.out then usub f.In f.out else len) = _
    split <;> omega
  have hLle : (kfifo_out f buf len).2.2 ≤ usub f.In f.out := by
    rw [hL]; omega
  have husub0 : usub f.In (uadd f.out (kfifo_out f buf len).2.2) =
      usub f.In f.out - (kfifo_out f buf len).2.2 :=
    usub_uadd_right_small hLle
  have husub : usub (kfifo_out f buf len).1.In (kfifo_out f buf len).1.out =
      usub f.In f.out - (kfifo_out f buf len).2.2 := husub0
  have hwf2 : kfifo_wf (kfifo_out f buf len).1 := by
    refine ⟨hwf.1, uadd_lt _ _, hwf.2.2.1, hwf.2.2.2.1, ?_⟩
    rw [husub]
    show usub f.In f.out - (kfifo_out f buf len).2.2 ≤ f.mask + 1
    omega
  exact ⟨rfl, hL, rfl, rfl, rfl, rfl, rfl, hwf2, husub⟩

/-- Contents specification of `kfifo_out`: the logical contents lose
exactly their first `count` bytes. -/
theorem kfifo_out_abs_spec {f : kfifo_t} (buf : List Nat) (len : Nat)
    (hwf : kfifo_wf f) :
    absBytes (kfifo_out f buf len).1 =
      (absBytes f).drop (kfifo_out f buf len).2.2 := by
  have hstate := kfifo_out_state buf len hwf
  have hdvd := kfifo_wf_cap_dvd hwf
  have hLle : (kfifo_out f buf len).2.2 ≤ usub f.In f.out := by
    rw [hstate.2.1]; omega
  have husub := hstate.2.2.2.2.2.2.2.2
  apply list_ext_getD
  · rw [absBytes_length, husub, List.length_drop, absBytes_length]
  · intro n hn
    rw [absBytes_length, husub] at hn
    rw [absBytes_getD (by rw [husub]; exact hn)]
    show f.data.getD ((uadd f.out (kfifo_out f buf len).2.2 + n) % (f.mask + 1)) 0 = _
    have hidx : (uadd f.out (kfifo_out f buf len).2.2 + n) % (f.mask + 1) =
        (f.out + ((kfifo_out f buf len).2.2 + n)) % (f.mask + 1) := by
      show ((f.out + (kfifo_out f buf len).2.2) % U32 + n) % (f.mask + 1) = _
      rw [← Nat.mod_add_mod ((f.out + (kfifo_out f buf len).2.2) % U32),
          Nat.mod_mod_of_dvd _ hdvd, Nat.mod_add_mod, Nat.add_assoc]
    rw [hidx, getD_drop, ← absBytes_getD (show (kfifo_out f buf len).2.2 + n < usub f.In f.out by omega)]

/-- The conservation invariant is preserved by every sequential trace of
`kfifo_in`/`kfifo_out` calls. -/
theorem runOps_invariant (ops : List KOp) : ∀ (f : kfifo_t) (tin tout : Nat),
    kfifo_wf f → tout ≤ tin → tin - tout = usub f.In f.out →
    kfifo_wf (runOps f tin tout ops).1 ∧
    (runOps f tin tout ops).2.2 ≤ (runOps f tin tout ops).2.1 ∧
    (runOps f tin tout ops).2.1 - (runOps f tin tout ops).2.2 =
      usub (runOps f tin tout ops).1.In (runOps f tin tout ops).1.out ∧
    usub (runOps f tin tout ops).1.In (runOps f tin tout ops).1.out ≤
      (runOps f tin tout ops).1.mask + 1 := by
  induction ops with
  | nil =>
      intro f tin tout hwf h1 h2
      exact ⟨hwf, h1, h2, hwf.2.2.2.2⟩
  | cons op ops ih =>
      intro f tin tout hwf h1 h2
      cases op with
      | inOp buf len =>
          have hs := kfifo_in_state buf len hwf
          exact ih (kfifo_in f buf len).1 (tin + (kfifo_in f buf len).2) tout
            hs.2.2.2.2.2.2.1 (by omega) (by rw [hs.2.2.2.2.2.2.2]; omega)
      | outOp len =>
          have hs := kfifo_out_state (List.replicate len 0) len hwf
          have hr : (kfifo_out f (List.replicate len 0) len).2.2 ≤ usub f.In f.out := by
            rw [hs.2.1]; omega
          exact ih (kfifo_out f (List.replicate len 0) len).1 tin
            (tout + (kfifo_out f (List.replicate len 0) len).2.2)
            hs.2.2.2.2.2.2.2.1 (by omega) (by rw [hs.2.2.2.2.2.2.2.2]; omega)

theorem memcpy_zero (dst : List Nat) (dstOff : Nat) (src : List Nat) (srcOff : Nat) :
    memcpy dst dstOff src srcOff 0 = dst := rfl

theorem kfifo_copy_in_zero (f : kfifo_t) (src : List Nat) (off : Nat) :
    kfifo_copy_in f src 0 off = f.data := by
  unfold kfifo_copy_in
  by_cases he : f.esize != 1 <;> simp [he, memcpy_zero]

theorem absBytes_empty {f : kfifo_t} (h : usub f.In f.out = 0) :
    absBytes f = [] := by
  unfold absBytes
  rw [h]
  rfl

theorem uadd_zero {a : Nat} (h : a < U32) : uadd a 0 = a := by
  simp only [uadd, U32] at *
  omega

/-! ## Facts about `kfifo_init` -/

theorem rounddown_pow_of_two_zero : rounddown_pow_of_two 0 = 1 := by decide

theorem is_power_of_2_ne_zero {n : Nat} (h : is_power_of_2 n = true) : n ≠ 0 := by
  rw [is_power_of_2_iff_raw] at h
  exact h.1

/-! ## Claim theorems -/

/-- C3: For every initialized fifo and every requested length `len`,
`kfifo_in` returns exactly `min(len, capacity - (in - out))` (never more
than the unused space at call time), advances the write cursor `in` by
exactly the returned count, and when the clamped length is `0` it
returns `0` with no side effects on the fifo state or storage. -/
theorem C3_in_returns_min_and_advances (f : kfifo_t) (buf : List Nat) (len : Nat)
    (hwf : kfifo_wf f) :
    (kfifo_in f buf len).2 = min len ((f.mask + 1) - usub f.In f.out) ∧
    (kfifo_in f buf len).2 ≤ kfifo_unused f ∧
    (kfifo_in f buf len).1.In = uadd f.In (kfifo_in f buf len).2 ∧
    (min len ((f.mask + 1) - usub f.In f.out) = 0 →
      (kfifo_in f buf len).2 = 0 ∧ (kfifo_in f buf len).1 = f) := by
  have hs := kfifo_in_state buf len hwf
  refine ⟨hs.1, ?_, hs.2.1, ?_⟩
  · rw [kfifo_unused_eq hwf, hs.1]
    omega
  · intro h0
    have hret0 : (kfifo_in f buf len).2 = 0 := by rw [hs.1]; exact h0
    refine ⟨hret0, ?_⟩
    show { f with data := kfifo_copy_in f buf ((kfifo_in f buf len).2) f.In, In := uadd f.In ((kfifo_in f buf len).2) } = f
    rw [hret0, kfifo_copy_in_zero, uadd_zero hwf.1]

/-- C5: Repeated `kfifo_out_peek` calls with the same arguments and no
intervening operation return the identical triple; `kfifo_out` is
exactly `kfifo_out_peek` followed by advancing the read cursor by the
peeked count, so it returns the same count and data and consumes
exactly what was peeked. -/
theorem C5_peek_idempotent_out_consumes (f : kfifo_t) (buf : List Nat) (len : Nat) :
    kfifo_out_peek ((kfifo_out_peek f buf len).1) buf len = kfifo_out_peek f buf len ∧
    (kfifo_out f buf len).1 = { f with out := uadd f.out ((kfifo_out_peek f buf len).2.2) } ∧
    (kfifo_out f buf len).2 = (kfifo_out_peek f buf len).2 ∧
    kfifo_len (kfifo_out f buf len).1 = kfifo_len f - (kfifo_out_peek f buf len).2.2 := by
  refine ⟨rfl, rfl, rfl, ?_⟩
  have hL : (kfifo_out_peek f buf len).2.2 ≤ usub f.In f.out := by
    show (if len > usub f.In f.out then usub f.In f.out else len) ≤ _
    split <;> omega
  show usub f.In (uadd f.out ((kfifo_out_peek f buf len).2.2)) =
    usub f.In f.out - (kfifo_out_peek f buf len).2.2
  exact usub_uadd_right_small hL

/-- C6: `kfifo_out_linear` returns exactly
`min(n, in - out, capacity - (out & mask))`, reports the starting
physical offset `out & mask`, copies no data and modifies no fifo
field; the returned window never crosses the physical end of storage
and the count never exceeds the request or the used count. -/
theorem C6_out_linear_bounds (f : kfifo_t) (n : Nat) (hwf : kfifo_wf f) :
    (kfifo_out_linear f n).1 = f ∧
    (kfifo_out_linear f n).2.1 = f.out &&& f.mask ∧
    (kfifo_out_linear f n).2.1 = f.out % (f.mask + 1) ∧
    (kfifo_out_linear f n).2.2 =
      min3 n (usub f.In f.out) ((f.mask + 1) - (f.out &&& f.mask)) ∧
    (kfifo_out_linear f n).2.1 + (kfifo_out_linear f n).2.2 ≤ f.mask + 1 ∧
    (kfifo_out_linear f n).2.2 ≤ n ∧
    (kfifo_out_linear f n).2.2 ≤ usub f.In f.out := by
  have hland : f.out &&& f.mask = f.out % (f.mask + 1) :=
    land_mask_eq_mod hwf.2.2.1 f.out
  have hoff : f.out &&& f.mask < f.mask + 1 := by
    rw [hland]
    exact Nat.mod_lt _ (Nat.succ_pos _)
  refine ⟨rfl, rfl, hland, rfl, ?_, ?_, ?_⟩
  · have h3 : min3 n (usub f.In f.out) ((f.mask + 1) - (f.out &&& f.mask)) ≤
        (f.mask + 1) - (f.out &&& f.mask) := Nat.min_le_right _ _
    have h21 : (kfifo_out_linear f n).2.1 = f.out &&& f.mask := rfl
    have h22 : (kfifo_out_linear f n).2.2 =
        min3 n (usub f.In f.out) ((f.mask + 1) - (f.out &&& f.mask)) := rfl
    rw [h21, h22]
    omega
  · show min3 n (usub f.In f.out) ((f.mask + 1) - (f.out &&& f.mask)) ≤ n
    exact le_trans (Nat.min_le_left _ _) (Nat.min_le_left _ _)
  · show min3 n (usub f.In f.out) ((f.mask + 1) - (f.out &&& f.mask)) ≤
      usub f.In f.out
    exact le_trans (Nat.min_le_left _ _) (Nat.min_le_right _ _)

/-- C9: `kfifo_skip_count` sets the read cursor `out` to
`out + count mod 2^32` unconditionally, without clamping `count` to the
stored element count; for some state and some `count` greater than
`in - out`, the resulting `in - out` exceeds the capacity, so the
occupancy invariant is the caller's responsibility. -/
theorem C9_skip_count_unclamped :
    (∀ (f : kfifo_t) (count : Nat),
      kfifo_skip_count f count = { f with out := (f.out + count) % U32 }) ∧
    (∃ (f : kfifo_t) (count : Nat), kfifo_wf f ∧
      usub f.In f.out < count ∧
      f.mask + 1 < kfifo_len (kfifo_skip_count f count)) := by
  refine ⟨fun f count => rfl, ⟨⟨0, 0, 7, 1, []⟩, 1, ?_, ?_, ?_⟩⟩
  · decide
  · decide
  · decide

/-- C7: Every successful `kfifo_init(fifo, buffer, size, esize)` yields a
capacity `mask + 1` that is a power of two, at least `2`, and at most
`size / esize` (the number of elements the storage can hold); both
cursors are zeroed and the element size and storage are recorded. -/
theorem C7_init_capacity (fifo : kfifo_t) (buffer : List Nat) (size esize : Nat)
    (hsz : size < U32) (hret : (kfifo_init fifo buffer size esize).2 = 0) :
    (∃ k, (kfifo_init fifo buffer size esize).1.mask + 1 = 2 ^ k) ∧
    2 ≤ (kfifo_init fifo buffer size esize).1.mask + 1 ∧
    (kfifo_init fifo buffer size esize).1.mask + 1 ≤ size / esize ∧
    (kfifo_init fifo buffer size esize).1.In = 0 ∧
    (kfifo_init fifo buffer size esize).1.out = 0 ∧
    (kfifo_init fifo buffer size esize).1.esize = esize ∧
    (kfifo_init fifo buffer size esize).1.data = buffer := by
  have hdiv : size / esize < U32 := lt_of_le_of_lt (Nat.div_le_self _ _) hsz
  by_cases hp : is_power_of_2 (size / esize) = true
  · by_cases h2 : size / esize < 2
    · exfalso
      have hres : (kfifo_init fifo buffer size esize).2 = -EINVAL := by
        simp [kfifo_init, hp, h2]
      rw [hret] at hres
      exact absurd hres (by decide)
    · have hres : kfifo_init fifo buffer size esize =
          ({ fifo with In := 0, out := 0, esize := esize, data := buffer, mask := size / esize - 1 }, 0) := by
        simp [kfifo_init, hp, h2]
      rw [hres]
      have hcap : size / esize - 1 + 1 = size / esize := by omega
      refine ⟨⟨Nat.log2 (size / esize), ?_⟩, ?_, ?_, rfl, rfl, rfl, rfl⟩
      · show size / esize - 1 + 1 = _
        rw [hcap]
        exact eq_two_pow_of_is_power_of_2 hp
      · show 2 ≤ size / esize - 1 + 1
        omega
      · show size / esize - 1 + 1 ≤ size / esize
        omega
  · have hpf : is_power_of_2 (size / esize) = false := by
      revert hp
      cases is_power_of_2 (size / esize) <;> simp
    by_cases h2 : rounddown_pow_of_two (size / esize) < 2
    · exfalso
      have hres : (kfifo_init fifo buffer size esize).2 = -EINVAL := by
        simp [kfifo_init, hpf, h2]
      rw [hret] at hres
      exact absurd hres (by decide)
    · have hne : size / esize ≠ 0 := by
        intro h0
        rw [h0, rounddown_pow_of_two_zero] at h2
        exact h2 (by decide)
      have hres : kfifo_init fifo buffer size esize =
          ({ fifo with In := 0, out := 0, esize := esize, data := buffer, mask := rounddown_pow_of_two (size / esize) - 1 }, 0) := by
        simp [kfifo_init, hpf, h2]
      rw [hres]
      have hrd := rounddown_pow_of_two_eq hne hdiv
      have hge2 : 2 ≤ rounddown_pow_of_two (size / esize) := by omega
      refine ⟨⟨Nat.log2 (size / esize), ?_⟩, ?_, ?_, rfl, rfl, rfl, rfl⟩
      · show rounddown_pow_of_two (size / esize) - 1 + 1 = _
        rw [show rounddown_pow_of_two (size / esize) - 1 + 1 =
          rounddown_pow_of_two (size / esize) by omega, hrd]
      · show 2 ≤ rounddown_pow_of_two (size / esize) - 1 + 1
        omega
      · show rounddown_pow_of_two (size / esize) - 1 + 1 ≤ size / esize
        have hle := rounddown_pow_of_two_le hne hdiv
        omega

/-- C8: `kfifo_init` (second draft, with the element-size check) returns
`-EINVAL` exactly when the element count rounded down to a power of two
is less than `2` or the element size is zero, and `-EINVAL` is the only
non-zero return value. -/
theorem C8_init_error (fifo : kfifo_t) (buffer : List Nat) (size esize : Nat)
    (hsz : size < U32) :
    ((kfifo_init_v2 fifo buffer size esize).2 = -EINVAL ↔
      (esize = 0 ∨ rounddown_pow_of_two (size / esize) < 2)) ∧
    ((kfifo_init_v2 fifo buffer size esize).2 = -EINVAL ∨
      (kfifo_init_v2 fifo buffer size esize).2 = 0) := by
  have hdiv : size / esize < U32 := lt_of_le_of_lt (Nat.div_le_self _ _) hsz
  by_cases he0 : esize = 0
  · have hres : (kfifo_init_v2 fifo buffer size esize).2 = -EINVAL := by
      simp [kfifo_init_v2, he0]
    rw [hres]
    exact ⟨⟨fun _ => Or.inl he0, fun _ => rfl⟩, Or.inl rfl⟩
  · by_cases hp : is_power_of_2 (size / esize) = true
    · have hne : size / esize ≠ 0 := is_power_of_2_ne_zero hp
      have hrd : rounddown_pow_of_two (size / esize) = size / esize := by
        rw [rounddown_pow_of_two_eq hne hdiv, ← eq_two_pow_of_is_power_of_2 hp]
      by_cases h2 : size / esize < 2
      · have hres : (kfifo_init_v2 fifo buffer size esize).2 = -EINVAL := by
          simp [kfifo_init_v2, he0, hp, h2]
        rw [hres]
        exact ⟨⟨fun _ => Or.inr (by rw [hrd]; exact h2), fun _ => rfl⟩, Or.inl rfl⟩
      · have hres : (kfifo_init_v2 fifo buffer size esize).2 = 0 := by
          simp [kfifo_init_v2, he0, hp, h2]
        rw [hres]
        refine ⟨⟨fun h => absurd h (by decide), fun h => ?_⟩, Or.inr rfl⟩
        rcases h with h | h
        · exact absurd h he0
        · rw [hrd] at h
          exact absurd h h2
    · have hpf : is_power_of_2 (size / esize) = false := by
        revert hp
        cases is_power_of_2 (size / esize) <;> simp
      by_cases h2 : rounddown_pow_of_two (size / esize) < 2
      · have hres : (kfifo_init_v2 fifo buffer size esize).2 = -EINVAL := by
          simp [kfifo_init_v2, he0, hpf, h2]
        rw [hres]
        exact ⟨⟨fun _ => Or.inr h2, fun _ => rfl⟩, Or.inl rfl⟩
      · have hres : (kfifo_init_v2 fifo buffer size esize).2 = 0 := by
          simp [kfifo_init_v2, he0, hpf, h2]
        rw [hres]
        refine ⟨⟨fun h => absurd h (by decide), fun h => ?_⟩, Or.inr rfl⟩
        rcases h with h | h
        · exact absurd h he0
        · exact absurd h h2

/-- C10: Even when `kfifo_init` fails it still mutates the structure —
zeroing both cursors, recording `esize` and the storage, and setting
`mask` to `0` — so `kfifo_initialized` returns `0` after every failed
initialization and `1` after every successful one. -/
theorem C10_init_failure_state (fifo : kfifo_t) (buffer : List Nat) (size esize : Nat) :
    ((kfifo_init fifo buffer size esize).2 ≠ 0 →
      (kfifo_init fifo buffer size esize).1 =
        { In := 0, out := 0, mask := 0, esize := esize, data := buffer } ∧
      kfifo_initialized (kfifo_init fifo buffer size esize).1 = 0) ∧
    ((kfifo_init fifo buffer size esize).2 = 0 →
      kfifo_initialized (kfifo_init fifo buffer size esize).1 = 1) := by
  by_cases hp : is_power_of_2 (size / esize) = true
  · by_cases h2 : size / esize < 2
    · have hres : kfifo_init fifo buffer size esize =
          ({ fifo with In := 0, out := 0, esize := esize, data := buffer, mask := 0 }, -EINVAL) := by
        simp [kfifo_init, hp, h2]
      rw [hres]
      exact ⟨fun _ => ⟨rfl, rfl⟩, fun h => absurd h (show ¬(-EINVAL = (0:Int)) by decide)⟩
    · have hres : kfifo_init fifo buffer size esize =
          ({ fifo with In := 0, out := 0, esize := esize, data := buffer, mask := size / esize - 1 }, 0) := by
        simp [kfifo_init, hp, h2]
      rw [hres]
      refine ⟨fun h => absurd rfl h, fun _ => ?_⟩
      have hv : size / esize - 1 ≠ 0 := by omega
      simp [kfifo_initialized, hv]
  · have hpf : is_power_of_2 (size / esize) = false := by
      revert hp
      cases is_power_of_2 (size / esize) <;> simp
    by_cases h2 : rounddown_pow_of_two (size / esize) < 2
    · have hres : kfifo_init fifo buffer size esize =
          ({ fifo with In := 0, out := 0, esize := esize, data := buffer, mask := 0 }, -EINVAL) := by
        simp [kfifo_init, hpf, h2]
      rw [hres]
      exact ⟨fun _ => ⟨rfl, rfl⟩, fun h => absurd h (show ¬(-EINVAL = (0:Int)) by decide)⟩
    · have hres : kfifo_init fifo buffer size esize =
          ({ fifo with In := 0, out := 0, esize := esize, data := buffer, mask := rounddown_pow_of_two (size / esize) - 1 }, 0) := by
        simp [kfifo_init, hpf, h2]
      rw [hres]
      refine ⟨fun h => absurd rfl h, fun _ => ?_⟩
      have hv : rounddown_pow_of_two (size / esize) - 1 ≠ 0 := by omega
      simp [kfifo_initialized, hv]

/-- The bulk copy-in is exactly the two-segment byte split of the spec:
`min(len_bytes, size_bytes - off_bytes)` bytes at byte offset
`off_bytes`, the remainder at byte offset `0`. -/
theorem kfifo_copy_in_split (g : kfifo_t) (src : List Nat) (len off : Nat) :
    kfifo_copy_in g src len off =
      memcpy (memcpy g.data ((off &&& g.mask) * g.esize) src 0
          (min (len * g.esize) ((g.mask + 1) * g.esize - (off &&& g.mask) * g.esize)))
        0 src
        (min (len * g.esize) ((g.mask + 1) * g.esize - (off &&& g.mask) * g.esize))
        (len * g.esize -
          min (len * g.esize) ((g.mask + 1) * g.esize - (off &&& g.mask) * g.esize)) := by
  unfold kfifo_copy_in
  by_cases hne : g.esize != 1
  · simp [hne]
  · have he : g.esize = 1 := by
      revert hne
      simp
    simp [he]

/-- The bulk copy-out is exactly the two-segment byte split of the spec. -/
theorem kfifo_copy_out_split (g : kfifo_t) (dst : List Nat) (len off : Nat) :
    kfifo_copy_out g dst len off =
      memcpy (memcpy dst 0 g.data ((off &&& g.mask) * g.esize)
          (min (len * g.esize) ((g.mask + 1) * g.esize - (off &&& g.mask) * g.esize)))
        (min (len * g.esize) ((g.mask + 1) * g.esize - (off &&& g.mask) * g.esize))
        g.data 0
        (len * g.esize -
          min (len * g.esize) ((g.mask + 1) * g.esize - (off &&& g.mask) * g.esize)) := by
  unfold kfifo_copy_out
  by_cases hne : g.esize != 1
  · simp [hne]
  · have he : g.esize = 1 := by
      revert hne
      simp
    simp [he]

/-- Byte-level characterisation of the two-segment copy-out for an
arbitrary element size: destination byte `q` below the transferred
byte count `r * esize` receives the ring byte at byte position
`((a % capacity) * esize + q) % (capacity * esize)`, and the rest of
the destination is untouched. -/
theorem getD_kfifo_copy_out_bytes {f : kfifo_t} (dst : List Nat) (r a : Nat)
    (hpow : is_power_of_2 (f.mask + 1) = true)
    (hr : r ≤ f.mask + 1) (hdst : r * f.esize ≤ dst.length) (q : Nat) :
    (kfifo_copy_out f dst r a).getD q 0 =
      if q < r * f.esize
      then f.data.getD (((a % (f.mask + 1)) * f.esize + q) % ((f.mask + 1) * f.esize)) 0
      else dst.getD q 0 := by
  rw [kfifo_copy_out_split, land_mask_eq_mod hpow]
  have hofflesize : (a % (f.mask + 1)) * f.esize ≤ (f.mask + 1) * f.esize :=
    Nat.mul_le_mul_right _ (le_of_lt (Nat.mod_lt _ (Nat.succ_pos _)))
  have hlenlesize : r * f.esize ≤ (f.mask + 1) * f.esize :=
    Nat.mul_le_mul_right _ hr
  set E := f.esize with hE
  set offE := (a % (f.mask + 1)) * E with hoffE
  set sizeE := (f.mask + 1) * E with hsizeE
  set lenE := r * E with hlenE
  set l := min lenE (sizeE - offE) with hl
  have hl1 : l ≤ lenE := Nat.min_le_left _ _
  have hl2 : l ≤ sizeE - offE := Nat.min_le_right _ _
  have hl3 : l = lenE ∨ l = sizeE - offE := by
    rcases Nat.le_total lenE (sizeE - offE) with h | h
    · left; omega
    · right; omega
  have hmem1 : 0 + l ≤ dst.length := by omega
  have hmem2 : l + (lenE - l) ≤ (memcpy dst 0 f.data offE l).length := by
    rw [memcpy_length]; omega
  rw [getD_memcpy _ _ _ _ _ hmem2, getD_memcpy _ _ _ _ _ hmem1]
  by_cases hql : q < l
  · have houter : ¬ (l ≤ q ∧ q < l + (lenE - l)) := by omega
    have hinner : 0 ≤ q ∧ q < 0 + l := by omega
    rw [if_neg houter, if_pos hinner, if_pos (by omega : q < lenE),
        Nat.mod_eq_of_lt (by omega : offE + q < sizeE)]
    have hidx : offE + (q - 0) = offE + q := by omega
    rw [hidx]
  · by_cases hqr : q < lenE
    · have hlcap : l = sizeE - offE := by omega
      have houter : l ≤ q ∧ q < l + (lenE - l) := by omega
      rw [if_pos houter, if_pos hqr]
      have h1 : (offE + q) % sizeE = q - l := by
        rw [Nat.mod_eq_sub_mod (by omega : sizeE ≤ offE + q)]
        have h2 : offE + q - sizeE = q - l := by omega
        rw [h2]
        exact Nat.mod_eq_of_lt (by omega)
      rw [h1]
      have hidx : 0 + (q - l) = q - l := by omega
      rw [hidx]
    · have houter : ¬ (l ≤ q ∧ q < l + (lenE - l)) := by omega
      have hinner : ¬ (0 ≤ q ∧ q < 0 + l) := by omega
      rw [if_neg houter, if_neg hinner, if_neg hqr]

/-- C4: For every initialized fifo — any element size — `kfifo_out_peek`
returns exactly `min(len, in - out)` (never more than the used space),
copies that many elements (`count * esize` bytes) starting at the
read-cursor offset into the destination, and leaves every field of the
fifo and the backing storage unchanged — in particular it does not
advance the read cursor. -/
theorem C4_peek_frame (f : kfifo_t) (buf : List Nat) (len : Nat)
    (hwf : kfifo_wf f)
    (hdst : min len (usub f.In f.out) * f.esize ≤ buf.length) :
    (kfifo_out_peek f buf len).1 = f ∧
    (kfifo_out_peek f buf len).2.2 = min len (usub f.In f.out) ∧
    (kfifo_out_peek f buf len).2.1.length = buf.length ∧
    (∀ q, q < (kfifo_out_peek f buf len).2.2 * f.esize →
      (kfifo_out_peek f buf len).2.1.getD q 0 =
        f.data.getD (((f.out % (f.mask + 1)) * f.esize + q) % ((f.mask + 1) * f.esize)) 0) ∧
    (∀ q, (kfifo_out_peek f buf len).2.2 * f.esize ≤ q →
      (kfifo_out_peek f buf len).2.1.getD q 0 = buf.getD q 0) := by
  have hused : usub f.In f.out ≤ f.mask + 1 := hwf.2.2.2.2
  have hL : (kfifo_out_peek f buf len).2.2 = min len (usub f.In f.out) := by
    show (if len > usub f.In f.out then usub f.In f.out else len) = _
    split <;> omega
  have hbuf2 : (kfifo_out_peek f buf len).2.1 =
      kfifo_copy_out f buf (min len (usub f.In f.out)) f.out := by
    show kfifo_copy_out f buf (if len > usub f.In f.out then usub f.In f.out else len) f.out = _
    rw [hL.symm]
    rfl
  refine ⟨rfl, hL, ?_, ?_, ?_⟩
  · rw [hbuf2, kfifo_copy_out_length]
  · intro q hq
    rw [hL] at hq
    rw [hbuf2, getD_kfifo_copy_out_bytes buf (min len (usub f.In f.out)) f.out
          hwf.2.2.1 (by omega) hdst q, if_pos hq]
  · intro q hq
    rw [hL] at hq
    rw [hbuf2, getD_kfifo_copy_out_bytes buf (min len (usub f.In f.out)) f.out
          hwf.2.2.1 (by omega) hdst q, if_neg (by omega)]


/-- C1: For every successfully initialized fifo (well-formed, cursors at
zero) and every sequence of `kfifo_in`/`kfifo_out` calls executed
sequentially, at every point the running total of elements reported
written minus the running total reported read equals the wraparound
difference `in - out`, and that difference always lies in
`[0, capacity]`. -/
theorem C1_conservation (f : kfifo_t) (ops : List KOp)
    (hwf : kfifo_wf f) (hIn0 : f.In = 0) (hout0 : f.out = 0) :
    ∀ n : Nat,
      (runOps f 0 0 (ops.take n)).2.2 ≤ (runOps f 0 0 (ops.take n)).2.1 ∧
      (runOps f 0 0 (ops.take n)).2.1 - (runOps f 0 0 (ops.take n)).2.2 =
        usub (runOps f 0 0 (ops.take n)).1.In (runOps f 0 0 (ops.take n)).1.out ∧
      usub (runOps f 0 0 (ops.take n)).1.In (runOps f 0 0 (ops.take n)).1.out ≤
        (runOps f 0 0 (ops.take n)).1.mask + 1 := by
  intro n
  have h := runOps_invariant (ops.take n) f 0 0 hwf (le_refl 0)
    (by rw [hIn0, hout0, usub_self])
  exact ⟨h.2.1, h.2.2.1, h.2.2.2⟩

/-- C2: The spec §8 wraparound scenario — write `capacity` elements,
read `capacity / 2`, write `capacity / 2` more — produces, count for
count and byte for byte, exactly what the non-circular reference FIFO
produces, and every subsequent read returns the reference data; and
each bulk copy is the two-segment byte split
`min(len_bytes, size_bytes - off_bytes)` at `off_bytes` plus the
remainder at byte offset `0`. -/
theorem C2_wraparound_refinement (f : kfifo_t) (buf1 buf2 : List Nat)
    (hwf : kfifo_wf f) (he : f.esize = 1) (hlen : f.mask + 1 ≤ f.data.length)
    (hempty : kfifo_len f = 0)
    (hb1 : buf1.length = f.mask + 1) (hb2 : buf2.length = (f.mask + 1) / 2) :
    (scenarioK f buf1 buf2).1.2 = (scenarioR (f.mask + 1) buf1 buf2).1.2 ∧
    (scenarioK f buf1 buf2).2.1.2.2 = (scenarioR (f.mask + 1) buf1 buf2).2.1.2.length ∧
    (∀ q, q < (scenarioK f buf1 buf2).2.1.2.2 →
      (scenarioK f buf1 buf2).2.1.2.1.getD q 0 =
        (scenarioR (f.mask + 1) buf1 buf2).2.1.2.getD q 0) ∧
    (scenarioK f buf1 buf2).2.2.2 = (scenarioR (f.mask + 1) buf1 buf2).2.2.2 ∧
    absBytes (scenarioK f buf1 buf2).2.2.1 = (scenarioR (f.mask + 1) buf1 buf2).2.2.1.buf ∧
    (∀ n q, q < (kfifo_out (scenarioK f buf1 buf2).2.2.1 (List.replicate n 0) n).2.2 →
      (kfifo_out (scenarioK f buf1 buf2).2.2.1 (List.replicate n 0) n).2.1.getD q 0 =
        (ref_out (scenarioR (f.mask + 1) buf1 buf2).2.2.1 n).2.getD q 0) ∧
    (∀ (g : kfifo_t) (src : List Nat) (l o : Nat),
      kfifo_copy_in g src l o =
        memcpy (memcpy g.data ((o &&& g.mask) * g.esize) src 0
            (min (l * g.esize) ((g.mask + 1) * g.esize - (o &&& g.mask) * g.esize)))
          0 src (min (l * g.esize) ((g.mask + 1) * g.esize - (o &&& g.mask) * g.esize))
          (l * g.esize -
            min (l * g.esize) ((g.mask + 1) * g.esize - (o &&& g.mask) * g.esize))) ∧
    (∀ (g : kfifo_t) (dst : List Nat) (l o : Nat),
      kfifo_copy_out g dst l o =
        memcpy (memcpy dst 0 g.data ((o &&& g.mask) * g.esize)
            (min (l * g.esize) ((g.mask + 1) * g.esize - (o &&& g.mask) * g.esize)))
          (min (l * g.esize) ((g.mask + 1) * g.esize - (o &&& g.mask) * g.esize))
          g.data 0
          (l * g.esize -
            min (l * g.esize) ((g.mask + 1) * g.esize - (o &&& g.mask) * g.esize))) := by
  have hcapU : f.mask + 1 < U32 := kfifo_wf_cap_lt hwf
  have hcap2 : (f.mask + 1) / 2 ≤ f.mask + 1 := Nat.div_le_self _ _
  have hused0 : usub f.In f.out = 0 := hempty
  -- step 1: write `capacity` elements
  have hs1 := kfifo_in_state buf1 (f.mask + 1) hwf
  have hr1 : (kfifo_in f buf1 (f.mask + 1)).2 = f.mask + 1 := by
    rw [hs1.1, hused0]
    omega
  have hwf1 : kfifo_wf (kfifo_in f buf1 (f.mask + 1)).1 := hs1.2.2.2.2.2.2.1
  have hused1 : usub (kfifo_in f buf1 (f.mask + 1)).1.In
      (kfifo_in f buf1 (f.mask + 1)).1.out = f.mask + 1 := by
    rw [hs1.2.2.2.2.2.2.2, hused0, hr1]
    omega
  have he1 : (kfifo_in f buf1 (f.mask + 1)).1.esize = 1 := by
    rw [hs1.2.2.2.2.1]
    exact he
  have hmask1 : (kfifo_in f buf1 (f.mask + 1)).1.mask = f.mask := hs1.2.2.2.1
  have hlen1 : (kfifo_in f buf1 (f.mask + 1)).1.mask + 1 ≤
      (kfifo_in f buf1 (f.mask + 1)).1.data.length := by
    rw [hmask1, hs1.2.2.2.2.2.1]
    exact hlen
  have habs1 : absBytes (kfifo_in f buf1 (f.mask + 1)).1 = buf1 := by
    rw [kfifo_in_abs_spec buf1 (f.mask + 1) hwf he hlen (by omega),
        absBytes_empty hused0, List.nil_append, hr1, ← hb1, List.take_length]
  have ht1buf : (ref_in ⟨f.mask + 1, ([] : List Nat)⟩ buf1 (f.mask + 1)).1.buf = buf1 := by
    show ([] : List Nat) ++
      List.take (min (f.mask + 1) ((f.mask + 1) - ([] : List Nat).length)) buf1 = buf1
    rw [List.nil_append]
    have hm : min (f.mask + 1) ((f.mask + 1) - ([] : List Nat).length) = buf1.length := by
      rw [hb1]
      show min (f.mask + 1) (f.mask + 1 - 0) = f.mask + 1
      omega
    rw [hm, List.take_length]
  -- step 2: read `capacity / 2` elements
  have hs2 := kfifo_out_state (List.replicate ((f.mask + 1) / 2) 0)
    ((f.mask + 1) / 2) hwf1
  have hr2 : (kfifo_out (kfifo_in f buf1 (f.mask + 1)).1
      (List.replicate ((f.mask + 1) / 2) 0) ((f.mask + 1) / 2)).2.2 =
      (f.mask + 1) / 2 := by
    rw [hs2.2.1, hused1]
    omega
  have hwf2 : kfifo_wf (kfifo_out (kfifo_in f buf1 (f.mask + 1)).1
      (List.replicate ((f.mask + 1) / 2) 0) ((f.mask + 1) / 2)).1 :=
    hs2.2.2.2.2.2.2.2.1
  have hused2 : usub (kfifo_out (kfifo_in f buf1 (f.mask + 1)).1
        (List.replicate ((f.mask + 1) / 2) 0) ((f.mask + 1) / 2)).1.In
      (kfifo_out (kfifo_in f buf1 (f.mask + 1)).1
        (List.replicate ((f.mask + 1) / 2) 0) ((f.mask + 1) / 2)).1.out =
      (f.mask + 1) - (f.mask + 1) / 2 := by
    rw [hs2.2.2.2.2.2.2.2.2, hused1, hr2]
  have hmask2 : (kfifo_out (kfifo_in f buf1 (f.mask + 1)).1
      (List.replicate ((f.mask + 1) / 2) 0) ((f.mask + 1) / 2)).1.mask = f.mask := by
    rw [hs2.2.2.2.2.1, hmask1]
  have he2 : (kfifo_out (kfifo_in f buf1 (f.mask + 1)).1
      (List.replicate ((f.mask + 1) / 2) 0) ((f.mask + 1) / 2)).1.esize = 1 := by
    rw [hs2.2.2.2.2.2.1, he1]
  have hlen2 : (kfifo_out (kfifo_in f buf1 (f.mask + 1)).1
      (List.replicate ((f.mask + 1) / 2) 0) ((f.mask + 1) / 2)).1.mask + 1 ≤
      (kfifo_out (kfifo_in f buf1 (f.mask + 1)).1
      (List.replicate ((f.mask + 1) / 2) 0) ((f.mask + 1) / 2)).1.data.length := by
    rw [hmask2, hs2.2.2.2.2.2.2.1, hs1.2.2.2.2.2.1]
    exact hlen
  have habs2 : absBytes (kfifo_out (kfifo_in f buf1 (f.mask + 1)).1
      (List.replicate ((f.mask + 1) / 2) 0) ((f.mask + 1) / 2)).1 =
      buf1.drop ((f.mask + 1) / 2) := by
    rw [kfifo_out_abs_spec (List.replicate ((f.mask + 1) / 2) 0)
        ((f.mask + 1) / 2) hwf1, habs1, hr2]
  have ht2data : (ref_out (ref_in ⟨f.mask + 1, ([] : List Nat)⟩ buf1 (f.mask + 1)).1
      ((f.mask + 1) / 2)).2 = buf1.take ((f.mask + 1) / 2) := by
    show (ref_in ⟨f.mask + 1, ([] : List Nat)⟩ buf1 (f.mask + 1)).1.buf.take
      (min ((f.mask + 1) / 2)
        (ref_in ⟨f.mask + 1, ([] : List Nat)⟩ buf1 (f.mask + 1)).1.buf.length) = _
    rw [ht1buf, hb1, Nat.min_eq_left hcap2]
  have ht2buf : (ref_out (ref_in ⟨f.mask + 1, ([] : List Nat)⟩ buf1 (f.mask + 1)).1
      ((f.mask + 1) / 2)).1.buf = buf1.drop ((f.mask + 1) / 2) := by
    show (ref_in ⟨f.mask + 1, ([] : List Nat)⟩ buf1 (f.mask + 1)).1.buf.drop
      (min ((f.mask + 1) / 2)
        (ref_in ⟨f.mask + 1, ([] : List Nat)⟩ buf1 (f.mask + 1)).1.buf.length) = _
    rw [ht1buf, hb1, Nat.min_eq_left hcap2]
  have hdst2 : min ((f.mask + 1) / 2)
      (usub (kfifo_in f buf1 (f.mask + 1)).1.In (kfifo_in f buf1 (f.mask + 1)).1.out) ≤
      (List.replicate ((f.mask + 1) / 2) 0).length := by
    rw [hused1, List.length_replicate]
    omega
  have hpk2 := kfifo_out_peek_spec (List.replicate ((f.mask + 1) / 2) 0)
    ((f.mask + 1) / 2) hwf1 he1 hdst2
  -- step 3: write `capacity / 2` more elements
  have hs3 := kfifo_in_state buf2 ((f.mask + 1) / 2) hwf2
  have hr3 : (kfifo_in (kfifo_out (kfifo_in f buf1 (f.mask + 1)).1
      (List.replicate ((f.mask + 1) / 2) 0) ((f.mask + 1) / 2)).1 buf2
      ((f.mask + 1) / 2)).2 = (f.mask + 1) / 2 := by
    rw [hs3.1, hmask2, hused2]
    omega
  have hwf3 : kfifo_wf (kfifo_in (kfifo_out (kfifo_in f buf1 (f.mask + 1)).1
      (List.replicate ((f.mask + 1) / 2) 0) ((f.mask + 1) / 2)).1 buf2
      ((f.mask + 1) / 2)).1 := hs3.2.2.2.2.2.2.1
  have he3 : (kfifo_in (kfifo_out (kfifo_in f buf1 (f.mask + 1)).1
      (List.replicate ((f.mask + 1) / 2) 0) ((f.mask + 1) / 2)).1 buf2
      ((f.mask + 1) / 2)).1.esize = 1 := by
    rw [hs3.2.2.2.2.1, he2]
  have hused3 : usub (kfifo_in (kfifo_out (kfifo_in f buf1 (f.mask + 1)).1
        (List.replicate ((f.mask + 1) / 2) 0) ((f.mask + 1) / 2)).1 buf2
        ((f.mask + 1) / 2)).1.In
      (kfifo_in (kfifo_out (kfifo_in f buf1 (f.mask + 1)).1
        (List.replicate ((f.mask + 1) / 2) 0) ((f.mask + 1) / 2)).1 buf2
        ((f.mask + 1) / 2)).1.out = f.mask + 1 := by
    rw [hs3.2.2.2.2.2.2.2, hused2, hr3]
    omega
  have habs3 : absBytes (kfifo_in (kfifo_out (kfifo_in f buf1 (f.mask + 1)).1
      (List.replicate ((f.mask + 1) / 2) 0) ((f.mask + 1) / 2)).1 buf2
      ((f.mask + 1) / 2)).1 = buf1.drop ((f.mask + 1) / 2) ++ buf2 := by
    rw [kfifo_in_abs_spec buf2 ((f.mask + 1) / 2) hwf2 he2 hlen2 (by omega),
        habs2, hr3, ← hb2, List.take_length]
  have ht3buf : (ref_in (ref_out (ref_in ⟨f.mask + 1, ([] : List Nat)⟩ buf1
      (f.mask + 1)).1 ((f.mask + 1) / 2)).1 buf2 ((f.mask + 1) / 2)).1.buf =
      buf1.drop ((f.mask + 1) / 2) ++ buf2 := by
    show (ref_out (ref_in ⟨f.mask + 1, ([] : List Nat)⟩ buf1 (f.mask + 1)).1
        ((f.mask + 1) / 2)).1.buf ++
      List.take (min ((f.mask + 1) / 2) ((f.mask + 1) -
        (ref_out (ref_in ⟨f.mask + 1, ([] : List Nat)⟩ buf1 (f.mask + 1)).1
        ((f.mask + 1) / 2)).1.buf.length)) buf2 = _
    rw [ht2buf, List.length_drop, hb1]
    have hm : min ((f.mask + 1) / 2) ((f.mask + 1) - ((f.mask + 1) - (f.mask + 1) / 2)) =
        buf2.length := by
      rw [hb2]
      omega
    rw [hm, List.take_length]
  have ht3n : (ref_in (ref_out (ref_in ⟨f.mask + 1, ([] : List Nat)⟩ buf1
      (f.mask + 1)).1 ((f.mask + 1) / 2)).1 buf2 ((f.mask + 1) / 2)).2 =
      (f.mask + 1) / 2 := by
    show min ((f.mask + 1) / 2) ((f.mask + 1) -
      (ref_out (ref_in ⟨f.mask + 1, ([] : List Nat)⟩ buf1 (f.mask + 1)).1
      ((f.mask + 1) / 2)).1.buf.length) = _
    rw [ht2buf, List.length_drop, hb1]
    omega
  refine ⟨?_, ?_, ?_, ?_, ?_, ?_, kfifo_copy_in_split, kfifo_copy_out_split⟩
  · -- first write: counts agree
    show (kfifo_in f buf1 (f.mask + 1)).2 =
      min (f.mask + 1) ((f.mask + 1) - ([] : List Nat).length)
    rw [hr1]
    show f.mask + 1 = min (f.mask + 1) (f.mask + 1 - 0)
    omega
  · -- middle read: counts agree
    show (kfifo_out (kfifo_in f buf1 (f.mask + 1)).1
        (List.replicate ((f.mask + 1) / 2) 0) ((f.mask + 1) / 2)).2.2 =
      (ref_out (ref_in ⟨f.mask + 1, ([] : List Nat)⟩ buf1 (f.mask + 1)).1
        ((f.mask + 1) / 2)).2.length
    rw [hr2, ht2data, List.length_take, hb1, Nat.min_eq_left hcap2]
  · -- middle read: data agrees byte for byte
    intro q hq
    have hq2 : q < (f.mask + 1) / 2 := by
      rw [← hr2]
      exact hq
    have hq3 : q < min ((f.mask + 1) / 2)
        (usub (kfifo_in f buf1 (f.mask + 1)).1.In
          (kfifo_in f buf1 (f.mask + 1)).1.out) := by
      rw [hused1]
      omega
    show (kfifo_out_peek (kfifo_in f buf1 (f.mask + 1)).1
        (List.replicate ((f.mask + 1) / 2) 0) ((f.mask + 1) / 2)).2.1.getD q 0 =
      (ref_out (ref_in ⟨f.mask + 1, ([] : List Nat)⟩ buf1 (f.mask + 1)).1
        ((f.mask + 1) / 2)).2.getD q 0
    rw [hpk2.2.2.2.1 q hq3, habs1, ht2data, getD_take hq2]
  · -- second write: counts agree
    show (kfifo_in (kfifo_out (kfifo_in f buf1 (f.mask + 1)).1
        (List.replicate ((f.mask + 1) / 2) 0) ((f.mask + 1) / 2)).1 buf2
        ((f.mask + 1) / 2)).2 =
      (ref_in (ref_out (ref_in ⟨f.mask + 1, ([] : List Nat)⟩ buf1 (f.mask + 1)).1
        ((f.mask + 1) / 2)).1 buf2 ((f.mask + 1) / 2)).2
    rw [hr3, ht3n]
  · -- final logical contents agree
    show absBytes (kfifo_in (kfifo_out (kfifo_in f buf1 (f.mask + 1)).1
        (List.replicate ((f.mask + 1) / 2) 0) ((f.mask + 1) / 2)).1 buf2
        ((f.mask + 1) / 2)).1 =
      (ref_in (ref_out (ref_in ⟨f.mask + 1, ([] : List Nat)⟩ buf1 (f.mask + 1)).1
        ((f.mask + 1) / 2)).1 buf2 ((f.mask + 1) / 2)).1.buf
    rw [habs3, ht3buf]
  · -- every subsequent read agrees with the reference
    intro n q hq
    have hdstn : min n (usub (kfifo_in (kfifo_out (kfifo_in f buf1 (f.mask + 1)).1
        (List.replicate ((f.mask + 1) / 2) 0) ((f.mask + 1) / 2)).1 buf2
        ((f.mask + 1) / 2)).1.In
        (kfifo_in (kfifo_out (kfifo_in f buf1 (f.mask + 1)).1
        (List.replicate ((f.mask + 1) / 2) 0) ((f.mask + 1) / 2)).1 buf2
        ((f.mask + 1) / 2)).1.out) ≤ (List.replicate n 0).length := by
      rw [List.length_replicate]
      exact Nat.min_le_left _ _
    have hpk3 := kfifo_out_peek_spec (List.replicate n 0) n hwf3 he3 hdstn
    have hq3 : q < min n (usub (kfifo_in (kfifo_out (kfifo_in f buf1 (f.mask + 1)).1
        (List.replicate ((f.mask + 1) / 2) 0) ((f.mask + 1) / 2)).1 buf2
        ((f.mask + 1) / 2)).1.In
        (kfifo_in (kfifo_out (kfifo_in f buf1 (f.mask + 1)).1
        (List.replicate ((f.mask + 1) / 2) 0) ((f.mask + 1) / 2)).1 buf2
        ((f.mask + 1) / 2)).1.out) := by
      rw [← hpk3.2.1]
      exact hq
    have hreflen : (ref_in (ref_out (ref_in ⟨f.mask + 1, ([] : List Nat)⟩ buf1
        (f.mask + 1)).1 ((f.mask + 1) / 2)).1 buf2 ((f.mask + 1) / 2)).1.buf.length =
        f.mask + 1 := by
      rw [ht3buf, List.length_append, List.length_drop, hb1, hb2]
      omega
    have hqr : q < min n ((ref_in (ref_out (ref_in ⟨f.mask + 1, ([] : List Nat)⟩ buf1
        (f.mask + 1)).1 ((f.mask + 1) / 2)).1 buf2 ((f.mask + 1) / 2)).1.buf.length) := by
      rw [hreflen]
      rw [hused3] at hq3
      omega
    show (kfifo_out_peek (kfifo_in (kfifo_out (kfifo_in f buf1 (f.mask + 1)).1
        (List.replicate ((f.mask + 1) / 2) 0) ((f.mask + 1) / 2)).1 buf2
        ((f.mask + 1) / 2)).1 (List.replicate n 0) n).2.1.getD q 0 =
      ((ref_in (ref_out (ref_in ⟨f.mask + 1, ([] : List Nat)⟩ buf1 (f.mask + 1)).1
        ((f.mask + 1) / 2)).1 buf2 ((f.mask + 1) / 2)).1.buf.take
        (min n (ref_in (ref_out (ref_in ⟨f.mask + 1, ([] : List Nat)⟩ buf1
        (f.mask + 1)).1 ((f.mask + 1) / 2)).1 buf2 ((f.mask + 1) / 2)).1.buf.length)).getD q 0
    rw [hpk3.2.2.2.1 q hq3, habs3, getD_take hqr, ht3buf]

/-! ## Concrete witnesses -/

theorem C1_conservation_witness :
    kfifo_wf ⟨0, 0, 7, 1, List.replicate 8 0⟩ ∧
    ((runOps ⟨0, 0, 7, 1, List.replicate 8 0⟩ 0 0
        ([KOp.inOp [1, 2, 3, 4, 5] 5, KOp.outOp 2,
          KOp.inOp [6, 7, 8, 9, 10, 11, 12] 7, KOp.outOp 9].take 4)).2.2 ≤
      (runOps ⟨0, 0, 7, 1, List.replicate 8 0⟩ 0 0
        ([KOp.inOp [1, 2, 3, 4, 5] 5, KOp.outOp 2,
          KOp.inOp [6, 7, 8, 9, 10, 11, 12] 7, KOp.outOp 9].take 4)).2.1 ∧
      (runOps ⟨0, 0, 7, 1, List.replicate 8 0⟩ 0 0
        ([KOp.inOp [1, 2, 3, 4, 5] 5, KOp.outOp 2,
          KOp.inOp [6, 7, 8, 9, 10, 11, 12] 7, KOp.outOp 9].take 4)).2.1 -
        (runOps ⟨0, 0, 7, 1, List.replicate 8 0⟩ 0 0
        ([KOp.inOp [1, 2, 3, 4, 5] 5, KOp.outOp 2,
          KOp.inOp [6, 7, 8, 9, 10, 11, 12] 7, KOp.outOp 9].take 4)).2.2 =
        usub (runOps ⟨0, 0, 7, 1, List.replicate 8 0⟩ 0 0
        ([KOp.inOp [1, 2, 3, 4, 5] 5, KOp.outOp 2,
          KOp.inOp [6, 7, 8, 9, 10, 11, 12] 7, KOp.outOp 9].take 4)).1.In
        (runOps ⟨0, 0, 7, 1, List.replicate 8 0⟩ 0 0
        ([KOp.inOp [1, 2, 3, 4, 5] 5, KOp.outOp 2,
          KOp.inOp [6, 7, 8, 9, 10, 11, 12] 7, KOp.outOp 9].take 4)).1.out ∧
      usub (runOps ⟨0, 0, 7, 1, List.replicate 8 0⟩ 0 0
        ([KOp.inOp [1, 2, 3, 4, 5] 5, KOp.outOp 2,
          KOp.inOp [6, 7, 8, 9, 10, 11, 12] 7, KOp.outOp 9].take 4)).1.In
        (runOps ⟨0, 0, 7, 1, List.replicate 8 0⟩ 0 0
        ([KOp.inOp [1, 2, 3, 4, 5] 5, KOp.outOp 2,
          KOp.inOp [6, 7, 8, 9, 10, 11, 12] 7, KOp.outOp 9].take 4)).1.out ≤
        (runOps ⟨0, 0, 7, 1, List.replicate 8 0⟩ 0 0
        ([KOp.inOp [1, 2, 3, 4, 5] 5, KOp.outOp 2,
          KOp.inOp [6, 7, 8, 9, 10, 11, 12] 7, KOp.outOp 9].take 4)).1.mask + 1) :=
  ⟨by decide,
    C1_conservation ⟨0, 0, 7, 1, List.replicate 8 0⟩
      [KOp.inOp [1, 2, 3, 4, 5] 5, KOp.outOp 2,
        KOp.inOp [6, 7, 8, 9, 10, 11, 12] 7, KOp.outOp 9]
      (by decide) rfl rfl 4⟩

theorem C2_wraparound_refinement_witness :
    kfifo_wf ⟨0, 0, 7, 1, List.replicate 8 0⟩ ∧
    kfifo_len ⟨0, 0, 7, 1, List.replicate 8 0⟩ = 0 ∧
    absBytes (scenarioK ⟨0, 0, 7, 1, List.replicate 8 0⟩
        [1, 2, 3, 4, 5, 6, 7, 8] [9, 10, 11, 12]).2.2.1 =
      (scenarioR 8 [1, 2, 3, 4, 5, 6, 7, 8] [9, 10, 11, 12]).2.2.1.buf :=
  ⟨by decide, by decide,
    (C2_wraparound_refinement ⟨0, 0, 7, 1, List.replicate 8 0⟩
      [1, 2, 3, 4, 5, 6, 7, 8] [9, 10, 11, 12]
      (by decide) rfl (by decide) (by decide) (by decide) (by decide)).2.2.2.2.1⟩

theorem C3_in_returns_min_and_advances_witness :
    kfifo_wf ⟨2, 1, 7, 1, List.replicate 8 0⟩ ∧
    ((kfifo_in ⟨2, 1, 7, 1, List.replicate 8 0⟩ [5, 6, 7] 3).2 =
      min 3 ((7 + 1) - usub 2 1) ∧
    (kfifo_in ⟨2, 1, 7, 1, List.replicate 8 0⟩ [5, 6, 7] 3).2 ≤
      kfifo_unused ⟨2, 1, 7, 1, List.replicate 8 0⟩ ∧
    (kfifo_in ⟨2, 1, 7, 1, List.replicate 8 0⟩ [5, 6, 7] 3).1.In =
      uadd 2 (kfifo_in ⟨2, 1, 7, 1, List.replicate 8 0⟩ [5, 6, 7] 3).2 ∧
    (min 3 ((7 + 1) - usub 2 1) = 0 →
      (kfifo_in ⟨2, 1, 7, 1, List.replicate 8 0⟩ [5, 6, 7] 3).2 = 0 ∧
      (kfifo_in ⟨2, 1, 7, 1, List.replicate 8 0⟩ [5, 6, 7] 3).1 =
        ⟨2, 1, 7, 1, List.replicate 8 0⟩)) :=
  ⟨by decide,
    C3_in_returns_min_and_advances ⟨2, 1, 7, 1, List.replicate 8 0⟩ [5, 6, 7] 3 (by decide)⟩

theorem C4_peek_frame_witness :
    kfifo_wf ⟨3, 1, 3, 2, [10, 11, 12, 13, 14, 15, 16, 17]⟩ ∧
    min 2 (usub 3 1) * 2 ≤ ([0, 0, 0, 0, 0] : List Nat).length ∧
    ((kfifo_out_peek ⟨3, 1, 3, 2, [10, 11, 12, 13, 14, 15, 16, 17]⟩ [0, 0, 0, 0, 0] 2).1 =
      ⟨3, 1, 3, 2, [10, 11, 12, 13, 14, 15, 16, 17]⟩ ∧
    (kfifo_out_peek ⟨3, 1, 3, 2, [10, 11, 12, 13, 14, 15, 16, 17]⟩ [0, 0, 0, 0, 0] 2).2.2 =
      min 2 (usub 3 1) ∧
    (kfifo_out_peek ⟨3, 1, 3, 2, [10, 11, 12, 13, 14, 15, 16, 17]⟩ [0, 0, 0, 0, 0] 2).2.1.length =
      ([0, 0, 0, 0, 0] : List Nat).length ∧
    (∀ q, q < (kfifo_out_peek ⟨3, 1, 3, 2, [10, 11, 12, 13, 14, 15, 16, 17]⟩ [0, 0, 0, 0, 0] 2).2.2 * 2 →
      (kfifo_out_peek ⟨3, 1, 3, 2, [10, 11, 12, 13, 14, 15, 16, 17]⟩ [0, 0, 0, 0, 0] 2).2.1.getD q 0 =
        ([10, 11, 12, 13, 14, 15, 16, 17] : List Nat).getD (((1 % (3 + 1)) * 2 + q) % ((3 + 1) * 2)) 0) ∧
    (∀ q, (kfifo_out_peek ⟨3, 1, 3, 2, [10, 11, 12, 13, 14, 15, 16, 17]⟩ [0, 0, 0, 0, 0] 2).2.2 * 2 ≤ q →
      (kfifo_out_peek ⟨3, 1, 3, 2, [10, 11, 12, 13, 14, 15, 16, 17]⟩ [0, 0, 0, 0, 0] 2).2.1.getD q 0 =
        ([0, 0, 0, 0, 0] : List Nat).getD q 0)) :=
  ⟨by decide, by decide,
    C4_peek_frame ⟨3, 1, 3, 2, [10, 11, 12, 13, 14, 15, 16, 17]⟩ [0, 0, 0, 0, 0] 2
      (by decide) (by decide)⟩

theorem C6_out_linear_bounds_witness :
    kfifo_wf ⟨3, 1, 7, 1, [10, 11, 12, 13, 14, 15, 16, 17]⟩ ∧
    ((kfifo_out_linear ⟨3, 1, 7, 1, [10, 11, 12, 13, 14, 15, 16, 17]⟩ 5).1 =
      ⟨3, 1, 7, 1, [10, 11, 12, 13, 14, 15, 16, 17]⟩ ∧
    (kfifo_out_linear ⟨3, 1, 7, 1, [10, 11, 12, 13, 14, 15, 16, 17]⟩ 5).2.1 = 1 &&& 7 ∧
    (kfifo_out_linear ⟨3, 1, 7, 1, [10, 11, 12, 13, 14, 15, 16, 17]⟩ 5).2.1 = 1 % (7 + 1) ∧
    (kfifo_out_linear ⟨3, 1, 7, 1, [10, 11, 12, 13, 14, 15, 16, 17]⟩ 5).2.2 =
      min3 5 (usub 3 1) ((7 + 1) - (1 &&& 7)) ∧
    (kfifo_out_linear ⟨3, 1, 7, 1, [10, 11, 12, 13, 14, 15, 16, 17]⟩ 5).2.1 +
      (kfifo_out_linear ⟨3, 1, 7, 1, [10, 11, 12, 13, 14, 15, 16, 17]⟩ 5).2.2 ≤ 7 + 1 ∧
    (kfifo_out_linear ⟨3, 1, 7, 1, [10, 11, 12, 13, 14, 15, 16, 17]⟩ 5).2.2 ≤ 5 ∧
    (kfifo_out_linear ⟨3, 1, 7, 1, [10, 11, 12, 13, 14, 15, 16, 17]⟩ 5).2.2 ≤ usub 3 1) :=
  ⟨by decide,
    C6_out_linear_bounds ⟨3, 1, 7, 1, [10, 11, 12, 13, 14, 15, 16, 17]⟩ 5 (by decide)⟩

theorem C7_init_capacity_witness :
    (35 : Nat) < U32 ∧
    (kfifo_init ⟨9, 9, 9, 9, [1]⟩ (List.replicate 35 0) 35 4).2 = 0 ∧
    ((∃ k, (kfifo_init ⟨9, 9, 9, 9, [1]⟩ (List.replicate 35 0) 35 4).1.mask + 1 = 2 ^ k) ∧
    2 ≤ (kfifo_init ⟨9, 9, 9, 9, [1]⟩ (List.replicate 35 0) 35 4).1.mask + 1 ∧
    (kfifo_init ⟨9, 9, 9, 9, [1]⟩ (List.replicate 35 0) 35 4).1.mask + 1 ≤ 35 / 4 ∧
    (kfifo_init ⟨9, 9, 9, 9, [1]⟩ (List.replicate 35 0) 35 4).1.In = 0 ∧
    (kfifo_init ⟨9, 9, 9, 9, [1]⟩ (List.replicate 35 0) 35 4).1.out = 0 ∧
    (kfifo_init ⟨9, 9, 9, 9, [1]⟩ (List.replicate 35 0) 35 4).1.esize = 4 ∧
    (kfifo_init ⟨9, 9, 9, 9, [1]⟩ (List.replicate 35 0) 35 4).1.data = List.replicate 35 0) :=
  ⟨by decide, by decide,
    C7_init_capacity ⟨9, 9, 9, 9, [1]⟩ (List.replicate 35 0) 35 4 (by decide) (by decide)⟩

theorem C8_init_error_witness :
    (5 : Nat) < U32 ∧
    (((kfifo_init_v2 ⟨0, 0, 0, 0, []⟩ (List.replicate 5 0) 5 2).2 = -EINVAL ↔
      ((2 : Nat) = 0 ∨ rounddown_pow_of_two (5 / 2) < 2)) ∧
    ((kfifo_init_v2 ⟨0, 0, 0, 0, []⟩ (List.replicate 5 0) 5 2).2 = -EINVAL ∨
      (kfifo_init_v2 ⟨0, 0, 0, 0, []⟩ (List.replicate 5 0) 5 2).2 = 0)) :=
  ⟨by decide,
    C8_init_error ⟨0, 0, 0, 0, []⟩ (List.replicate 5 0) 5 2 (by decide)⟩

theorem C10_init_failure_state_witness :
    ((kfifo_init ⟨5, 6, 7, 8, [9]⟩ (List.replicate 4 0) 1 1).1 =
      ⟨0, 0, 0, 1, List.replicate 4 0⟩ ∧
      kfifo_initialized (kfifo_init ⟨5, 6, 7, 8, [9]⟩ (List.replicate 4 0) 1 1).1 = 0) ∧
    kfifo_initialized (kfifo_init ⟨5, 6, 7, 8, [9]⟩ (List.replicate 8 0) 8 1).1 = 1 :=
  ⟨(C10_init_failure_state ⟨5, 6, 7, 8, [9]⟩ (List.replicate 4 0) 1 1).1 (by decide),
    (C10_init_failure_state ⟨5, 6, 7, 8, [9]⟩ (List.replicate 8 0) 8 1).2 (by decide)⟩
